import Mathlib

/-
Verification of the CardSet specification against
src/libs/pokerstove/peval/CardSet.h.

The repository source provides CardSet.h only; the functions whose bodies
are inline in the header (the raw-mask constructor, clear, fill, disjoint,
intersects, the bitwise operators and swap) are embedded directly from that
code.  Functions that are only declared in the header (size, canonize,
colex, the evaluators, parsing and printing) are modelled from the
specification, as marked in their doc comments.

A card set is a 64-bit mask of cards in canonical order
[2c,3c ... Ac, Ad ... Ah ... Qs,Ks,As] (CardSet.h line 185): the bit index
of a card is suit * 13 + rank, with rank 0 = deuce .. 12 = ace and
suit 0 = clubs, 1 = diamonds, 2 = hearts, 3 = spades.  The machine
`uint64_t` is modelled as a `Nat` reduced modulo 2 ^ 64 where wrapping can
occur.
-/

/-- A CardSet (CardSet.h line 40): a single 64-bit field `_cardmask`. -/
structure CardSet where
  cardmask : Nat
deriving DecidableEq

/-- Modelled from the spec: a card is a (rank, suit) pair; the `Card` class
itself lives in Card.h, which is not part of src/.  Valid cards have
rank < 13 and suit < 4. -/
structure Card where
  rank : Nat
  suit : Nat
deriving DecidableEq

/-- Bit position of a card inside the mask (CardSet.h line 185 layout). -/
def Card.code (c : Card) : Nat := c.suit * 13 + c.rank

/-- Default constructor: "defaults to the empty set" (CardSet.h line 46). -/
def CardSet.empty : CardSet := ⟨0⟩

/-- `CardSet (uint64_t mask)` (CardSet.h line 50): stores the given mask
unchanged; the argument is a `uint64_t`, hence reduced modulo 2 ^ 64. -/
def CardSet.ofMask (mask : Nat) : CardSet := ⟨mask % 2 ^ 64⟩

/-- Modelled from the spec: `explicit CardSet (const Card& c)` builds a set
with one card (CardSet.h line 49; body not under src/). -/
def CardSet.single (c : Card) : CardSet := ⟨1 <<< c.code⟩

/-- `clear` (CardSet.h line 52): `_cardmask = 0`. -/
def CardSet.clear (_x : CardSet) : CardSet := ⟨0⟩

/-- `fill` (CardSet.h line 53): `_cardmask = 0; _cardmask = ~_cardmask;` —
the bitwise complement of zero on a 64-bit word, i.e. all 64 bits set. -/
def CardSet.fill (_x : CardSet) : CardSet := ⟨2 ^ 64 - 1⟩

/-- `mask()` accessor (CardSet.h line 56). -/
def CardSet.mask (x : CardSet) : Nat := x.cardmask

/-- `disjoint` (CardSet.h line 70): `(_cardmask & c._cardmask) == 0`. -/
def CardSet.disjoint (x c : CardSet) : Bool := x.cardmask &&& c.cardmask == 0

/-- `intersects` (CardSet.h line 71). -/
def CardSet.intersects (x c : CardSet) : Bool := !(x.disjoint c)

/-- `operator&` (CardSet.h line 168). -/
def CardSet.and (x c : CardSet) : CardSet := ⟨x.cardmask &&& c.cardmask⟩

/-- `operator|` (CardSet.h line 169). -/
def CardSet.or (x c : CardSet) : CardSet := ⟨x.cardmask ||| c.cardmask⟩

/-- `operator^` (CardSet.h line 170). -/
def CardSet.xor (x c : CardSet) : CardSet := ⟨x.cardmask ^^^ c.cardmask⟩

/-- `operator|=` (CardSet.h line 162), as a function on the receiver state. -/
def CardSet.orAssign (x c : CardSet) : CardSet := ⟨x.cardmask ||| c.cardmask⟩

/-- `operator^=` (CardSet.h line 163), as a function on the receiver state. -/
def CardSet.xorAssign (x c : CardSet) : CardSet := ⟨x.cardmask ^^^ c.cardmask⟩

/-- Modelled from the spec: `insert (const Card&)` adds one card
(CardSet.h line 66; body not under src/). -/
def CardSet.insertCard (x : CardSet) (c : Card) : CardSet :=
  ⟨x.cardmask ||| (1 <<< c.code)⟩

/-- `insert (const CardSet&)` is documented as "equivalent to |="
(CardSet.h line 67). -/
def CardSet.insertSet (x c : CardSet) : CardSet := ⟨x.cardmask ||| c.cardmask⟩

/-- Modelled from the spec: `remove (const Card&)` removes a card
(CardSet.h line 68; body not under src/): mask out the card's bit
(64-bit complement). -/
def CardSet.removeCard (x : CardSet) (c : Card) : CardSet :=
  ⟨x.cardmask &&& ((2 ^ 64 - 1) ^^^ (1 <<< c.code))⟩

/-- Modelled from the spec: `remove (const CardSet&)` (CardSet.h line 69;
body not under src/): mask out every card of the other set. -/
def CardSet.removeSet (x c : CardSet) : CardSet :=
  ⟨x.cardmask &&& ((2 ^ 64 - 1) ^^^ c.cardmask)⟩

/-- `swap` (CardSet.h lines 172-177): exchanges the masks of the receiver
and the argument through a temporary.  Modelled with explicit state
passing: the result is (new receiver state, new argument state). -/
def CardSet.swap (x c : CardSet) : CardSet × CardSet :=
  let t := c.cardmask
  let c' : CardSet := ⟨x.cardmask⟩
  let x' : CardSet := ⟨t⟩
  (x', c')

/-- Positions of the set bits of `n` in ascending order, offset by `p`.
`fuel` bounds the recursion depth; any `fuel ≥ n` yields the exact answer
(structural recursion on `fuel` keeps the definition kernel-evaluable). -/
def bitIndicesAux : Nat → Nat → Nat → List Nat
  | 0, _, _ => []
  | fuel + 1, n, p =>
    if n = 0 then []
    else (if n % 2 = 1 then [p] else []) ++ bitIndicesAux fuel (n / 2) (p + 1)

/-- Positions of the set bits of `n`, ascending, starting the count at `p`. -/
def bitIndicesFrom (n p : Nat) : List Nat := bitIndicesAux n n p

/-- Positions of the set bits of `n`, ascending. -/
def bitIndices (n : Nat) : List Nat := bitIndicesAux n n 0

/-- Population count of a natural number. -/
def popCount (n : Nat) : Nat := (bitIndices n).length

/-- Modelled from the spec: `size` returns the number of cards in the set,
the population count of the mask (CardSet.h line 54; body not under src/,
spec section 4.1). -/
def CardSet.size (x : CardSet) : Nat := popCount x.cardmask

/-- Sum of powers of two over a list of bit positions. -/
def sumPow (l : List Nat) : Nat := (l.map (2 ^ ·)).sum

/-- Union of the singleton masks of a list of bit positions. -/
def orPow (l : List Nat) : Nat := l.foldr (fun c a => (1 <<< c) ||| a) 0

/-- Combinadic value of a strictly descending list of bit positions: the
head contributes `choose head (tail length + 1)`, so with ascending
positions p₁ < ... < p_k the value is the sum of choose(p_i, i). -/
def colexD : List Nat → Nat
  | [] => 0
  | p :: ps => Nat.choose p (ps.length + 1) + colexD ps

/-- Modelled from the spec: `colex` (CardSet.h line 119; body not under
src/) maps a card set to its combinadic index over the 52 bit positions
(spec section 4.4). -/
def CardSet.colex (x : CardSet) : Nat := colexD (bitIndices x.cardmask).reverse

/-- Modelled from the spec: `suitMask` returns the 13-bit mask of ranks
present within one suit (CardSet.h line 95; body not under src/). -/
def CardSet.suitMask (x : CardSet) (s : Nat) : Nat :=
  (x.cardmask >>> (13 * s)) &&& (2 ^ 13 - 1)

/-- Modelled from the spec: `rankMask` has one bit set for each rank in the
hand (CardSet.h line 80; body not under src/): the union of the four suit
masks. -/
def CardSet.rankMask (x : CardSet) : Nat :=
  x.suitMask 0 ||| x.suitMask 1 ||| x.suitMask 2 ||| x.suitMask 3

/-- Sort key used by `canonize` (spec section 4.3): suits ranked by
descending card count, ties broken by the original canonical suit order;
a smaller key sorts earlier. -/
def canonKey (x : CardSet) (s : Nat) : Nat :=
  (13 - popCount (x.suitMask s)) * 4 + s

/-- The suit order chosen by `canonize`: the four suit indices sorted by
`canonKey`. -/
def canonOrder (x : CardSet) : List Nat :=
  [0, 1, 2, 3].insertionSort (fun i j => canonKey x i ≤ canonKey x j)

/-- Reassemble a mask from four 13-bit suit fields. -/
def assembleSuits (f : Fin 4 → Nat) : Nat :=
  f 0 + f 1 * 2 ^ 13 + f 2 * 2 ^ 26 + f 3 * 2 ^ 39

/-- Modelled from the spec: `canonize` (CardSet.h line 96; body not under
src/): target suit t receives the cards of the suit ranked t-th when the
suits are ordered by descending card count with ties broken by the
original canonical suit order (spec section 4.3). -/
def CardSet.canonize (x : CardSet) : CardSet :=
  ⟨assembleSuits (fun t => x.suitMask ((canonOrder x).getD t.val 0))⟩

/-- Modelled from the spec: `rotateSuits` (CardSet.h line 98; body not
under src/) applies a caller-supplied permutation π of the four suits to
every card: target suit t receives the cards held in suit π⁻¹(t) (spec
section 4.3). -/
def CardSet.rotateSuits (x : CardSet) (π : Equiv.Perm (Fin 4)) : CardSet :=
  ⟨assembleSuits (fun t => x.suitMask (π.symm t).val)⟩

/-- Modelled from the spec: `hasStraight` on a 13-bit rank mask (CardSet.h
line 81; body not under src/), via the shift-and bit trick: a bit survives
four successive shift-ands exactly when it starts five consecutive set
bits; the ace-low wheel A-2-3-4-5 is the extra mask 0x100F = 4111 (spec
section 4.2). -/
def hasStraightRanks (r : Nat) : Bool :=
  ((r &&& (r >>> 1) &&& (r >>> 2) &&& (r >>> 3) &&& (r >>> 4)) != 0) ||
  ((r &&& 4111) == 4111)

/-- `hasStraight` of a card set: the rank-mask straight test. -/
def CardSet.hasStraight (x : CardSet) : Bool := hasStraightRanks x.rankMask

/-- Ranks absent from the rank mask `r` whose addition yields a straight. -/
def straightCompleters (r : Nat) : List Nat :=
  (List.range 13).filter (fun i => !r.testBit i && hasStraightRanks (r ||| (1 <<< i)))

/-- Modelled from the spec: `evaluateStraightOuts` (CardSet.h lines
151-156; body not under src/): 8 when two or more single ranks complete a
straight (open-ended draw), 4 when exactly one does (gutshot), 1 when no
single rank completes one but some pair of distinct absent ranks does
(runner-runner), 0 otherwise (spec section 4.5).  `runnerRunnerDraw`
detects the last-mentioned two-rank (backdoor) completion. -/
def runnerRunnerDraw (r : Nat) : Bool :=
  (List.range 13).any (fun i =>
    !r.testBit i && (List.range 13).any (fun j =>
      i != j && !r.testBit j &&
        hasStraightRanks (r ||| (1 <<< i) ||| (1 <<< j))))

def CardSet.evaluateStraightOuts (x : CardSet) : Nat :=
  let r := x.rankMask
  if 2 ≤ (straightCompleters r).length then 8
  else if (straightCompleters r).length = 1 then 4
  else if runnerRunnerDraw r then 1
  else 0

/-- Ace-to-five low value of a rank index: the ace (index 12) counts as 1,
the other ranks count face value (index 0 = deuce = 2, ..., index 6 =
eight = 8, ..., index 11 = king = 13). -/
def lowVal (r : Nat) : Nat := if r = 12 then 1 else r + 2

/-- The set of rank indices present in the hand. -/
def CardSet.ranksOf (x : CardSet) : Finset Nat :=
  (Finset.range 13).filter (fun r => x.rankMask.testBit r)

/-- Rank indices present whose ace-to-five low value is at most 8. -/
def CardSet.lowRanksLE8 (x : CardSet) : Finset Nat :=
  x.ranksOf.filter (fun r => lowVal r ≤ 8)

/-- Base-16 encoding of an ascending list of low values, highest low value
most significant, so that comparing encodings compares the lows
lexicographically from the top card down. -/
def lowKey5 (l : List Nat) : Nat := l.foldr (fun v a => a * 16 + v) 0

/-- Modelled from the spec: `evaluate8LowA5` (CardSet.h line 141; body not
under src/): a hand qualifies exactly when five distinct ranks of
ace-to-five low value at most 8 are present (otherwise every five-card
selection either pairs or uses a card above 8); a qualifying hand is
scored by its five lowest distinct low values, complemented so that a
lower low is the greater evaluation and every qualifying evaluation
exceeds the sentinel 0 for "no qualifying hand" (spec sections 4.5 and 7,
glossary "Qualifying low").  `lowValsAsc` lists the qualifying low values
present in ascending order (all low values are below 14). -/
def CardSet.lowValsAsc (x : CardSet) : List Nat :=
  (List.range 14).filter (fun v => v ∈ x.lowRanksLE8.image lowVal)

def CardSet.evaluate8LowA5 (x : CardSet) : Nat :=
  if 5 ≤ x.lowRanksLE8.card then 16 ^ 5 - lowKey5 (x.lowValsAsc.take 5) else 0

/-- Rank characters of the thirteen ranks, deuce first (Rank.h is not
under src/; modelled from the spec's card-token format). -/
def rankChars : List Char := ['2','3','4','5','6','7','8','9','T','J','Q','K','A']

/-- SUIT_ASCII suit characters (Suit.h is not under src/). -/
def suitCharsAscii : List Char := ['c','d','h','s']

/-- Index of the first occurrence of a character in a list, if any. -/
def charIdx : List Char → Char → Option Nat
  | [], _ => none
  | a :: as, c => if a == c then some 0 else (charIdx as c).map (· + 1)

/-- Parse one rank character to a rank index. -/
def parseRankChar (c : Char) : Option Nat := charIdx rankChars c

/-- Parse one SUIT_ASCII suit character to a suit index. -/
def parseSuitChar (c : Char) : Option Nat := charIdx suitCharsAscii c

/-- Worker for string parsing: consume two-character card tokens left to
right, accumulating card bits, stopping at the first token that does not
parse (also when fewer than two characters remain). -/
def fromCharsAux : List Char → Nat → Nat
  | r :: s :: rest, acc =>
    match parseRankChar r, parseSuitChar s with
    | some rk, some st => fromCharsAux rest (acc ||| (1 <<< (st * 13 + rk)))
    | _, _ => acc
  | _, acc => acc

/-- Modelled from the spec: the string constructor / `fromString`
(CardSet.h lines 48 and 180; bodies not under src/): parse card tokens
left to right until the first failure, keeping the cards parsed so far;
parsing is total, it never fails abruptly (spec sections 3, 6 and 7). -/
def CardSet.fromString (s : List Char) : CardSet := ⟨fromCharsAux s 0⟩

/-- The head of the character stream is an uninterpretable token: fewer
than two characters remain, or the leading rank/suit pair does not
parse. -/
def headTokenBad : List Char → Bool
  | r :: s :: _ => (parseRankChar r).isNone || (parseSuitChar s).isNone
  | _ => true

/-- Modelled from the spec: suit display conventions
(`Suit::setSuitStringType`, Suit.h not under src/): SUIT_ASCII is the
designated reparseable convention; the unicode pip glyphs stand for the
other, non-reparseable conventions (CardSet.h lines 101-111, spec section
6). -/
inductive SuitDisplay where
  | suitAscii
  | suitUnicode
deriving DecidableEq

/-- Suit character under a display convention. -/
def suitCharOf : SuitDisplay → Nat → Char
  | .suitAscii, s => suitCharsAscii.getD s '?'
  | .suitUnicode, s => ['♣', '♦', '♥', '♠'].getD s '?'

/-- Rank character of a rank index. -/
def rankCharOf (r : Nat) : Char := rankChars.getD r '?'

/-- Modelled from the spec: `str` (CardSet.h line 112; body not under
src/): the concatenation of the individual card tokens in the set's
internal bit order (spec section 6). -/
def CardSet.strChars (d : SuitDisplay) (x : CardSet) : List Char :=
  (bitIndices x.cardmask).foldr
    (fun c acc => rankCharOf (c % 13) :: suitCharOf d (c / 13) :: acc) []

/-- Render a list of cards as SUIT_ASCII card tokens. -/
def renderCards (cs : List Card) : List Char :=
  cs.foldr (fun c acc => rankCharOf c.rank :: suitCharOf .suitAscii c.suit :: acc) []

/-- The mask obtained by inserting a list of cards left to right. -/
def maskOfCards (cs : List Card) : Nat :=
  cs.foldl (fun a c => a ||| (1 <<< c.code)) 0

theorem bitIndicesAux_zero (fuel p : Nat) : bitIndicesAux fuel 0 p = [] := by
  cases fuel <;> simp [bitIndicesAux]

theorem bitIndicesAux_congr :
    ∀ f₁ f₂ n p, n ≤ f₁ → n ≤ f₂ → bitIndicesAux f₁ n p = bitIndicesAux f₂ n p := by
  intro f₁
  induction f₁ with
  | zero =>
    intro f₂ n p h₁ _
    have hn : n = 0 := Nat.le_zero.mp h₁
    subst hn
    rw [bitIndicesAux_zero, bitIndicesAux_zero]
  | succ f ih =>
    intro f₂ n p h₁ h₂
    by_cases hn : n = 0
    · subst hn
      rw [bitIndicesAux_zero, bitIndicesAux_zero]
    · cases f₂ with
      | zero => omega
      | succ g =>
        simp only [bitIndicesAux, hn, if_false]
        have hrec : n / 2 ≤ f := by omega
        have hrec' : n / 2 ≤ g := by omega
        rw [ih g (n / 2) (p + 1) hrec hrec']

theorem bitIndicesFrom_eq (n p : Nat) :
    bitIndicesFrom n p =
      if n = 0 then []
      else (if n % 2 = 1 then [p] else []) ++ bitIndicesFrom (n / 2) (p + 1) := by
  by_cases hn : n = 0
  · subst hn
    simp [bitIndicesFrom, bitIndicesAux_zero]
  · cases n with
    | zero => omega
    | succ m =>
      simp only [bitIndicesFrom, bitIndicesAux, hn, if_false]
      congr 1
      exact bitIndicesAux_congr m ((m + 1) / 2) ((m + 1) / 2) _ (by omega) (by omega)

theorem bitIndicesFrom_zero_n (p : Nat) : bitIndicesFrom 0 p = [] := by
  rw [bitIndicesFrom_eq]; simp

theorem bitIndicesFrom_mem_ge :
    ∀ n p q, q ∈ bitIndicesFrom n p → p ≤ q := by
  intro n
  induction n using Nat.strong_induction_on with
  | _ n ih =>
    intro p q hq
    rw [bitIndicesFrom_eq] at hq
    by_cases hn : n = 0
    · simp [hn] at hq
    · simp only [hn, if_false, List.mem_append] at hq
      rcases hq with h | h
      · by_cases hm : n % 2 = 1
        · simp [hm] at h
          omega
        · simp [hm] at h
      · have := ih (n / 2) (by omega) (p + 1) q h
        omega

theorem bitIndicesFrom_mem_lt :
    ∀ n k p q, n < 2 ^ k → q ∈ bitIndicesFrom n p → q < p + k := by
  intro n
  induction n using Nat.strong_induction_on with
  | _ n ih =>
    intro k p q hk hq
    rw [bitIndicesFrom_eq] at hq
    by_cases hn : n = 0
    · simp [hn] at hq
    · have hk1 : 1 ≤ k := by
        by_contra h
        have : k = 0 := by omega
        subst this
        simp at hk
        omega
      simp only [hn, if_false, List.mem_append] at hq
      have hpow : 2 ^ k = 2 * 2 ^ (k - 1) := by
        conv_lhs => rw [show k = (k - 1) + 1 by omega]
        rw [pow_succ]
        ring
      rcases hq with h | h
      · by_cases hm : n % 2 = 1
        · simp [hm] at h
          omega
        · simp [hm] at h
      · have hdiv : n / 2 < 2 ^ (k - 1) := by omega
        have := ih (n / 2) (by omega) (k - 1) (p + 1) q hdiv h
        omega

theorem bitIndicesFrom_pairwise :
    ∀ n p, List.Pairwise (· < ·) (bitIndicesFrom n p) := by
  intro n
  induction n using Nat.strong_induction_on with
  | _ n ih =>
    intro p
    rw [bitIndicesFrom_eq]
    by_cases hn : n = 0
    · simp [hn]
    · simp only [hn, if_false]
      rw [List.pairwise_append]
      refine ⟨?_, ih (n / 2) (by omega) (p + 1), ?_⟩
      · by_cases hm : n % 2 = 1 <;> simp [hm]
      · intro a ha b hb
        have hb' := bitIndicesFrom_mem_ge (n / 2) (p + 1) b hb
        by_cases hm : n % 2 = 1
        · simp [hm] at ha
          omega
        · simp [hm] at ha

theorem bitIndicesFrom_length :
    ∀ n p, (bitIndicesFrom n p).length = popCount n := by
  have key : ∀ n p, (bitIndicesFrom n p).length = (bitIndicesFrom n 0).length := by
    intro n
    induction n using Nat.strong_induction_on with
    | _ n ih =>
      intro p
      by_cases hn : n = 0
      · simp [hn, bitIndicesFrom_zero_n]
      · rw [bitIndicesFrom_eq n p, bitIndicesFrom_eq n 0]
        simp only [hn, if_false, List.length_append]
        have h1 := ih (n / 2) (by omega) (p + 1)
        have h2 := ih (n / 2) (by omega) (0 + 1)
        by_cases hm : n % 2 = 1
        · simp only [hm, if_true, List.length_singleton]
          omega
        · simp only [hm, if_false, List.length_nil]
          omega
  intro n p
  rw [key n p]
  rfl

theorem popCount_rec (n : Nat) : popCount n = n % 2 + popCount (n / 2) := by
  by_cases hn : n = 0
  · subst hn
    simp [popCount, bitIndices, bitIndicesAux]
  · have h0 : popCount n = (bitIndicesFrom n 0).length := rfl
    rw [h0, bitIndicesFrom_eq]
    simp only [hn, if_false, List.length_append]
    rw [bitIndicesFrom_length (n / 2) (0 + 1)]
    by_cases hm : n % 2 = 1
    · simp [hm]
    · simp [hm]
      omega

theorem bitIndicesFrom_map_succ :
    ∀ n p, bitIndicesFrom n (p + 1) = (bitIndicesFrom n p).map (· + 1) := by
  intro n
  induction n using Nat.strong_induction_on with
  | _ n ih =>
    intro p
    rw [bitIndicesFrom_eq n (p + 1), bitIndicesFrom_eq n p]
    by_cases hn : n = 0
    · simp [hn]
    · simp only [hn, if_false, List.map_append]
      congr 1
      · by_cases hm : n % 2 = 1 <;> simp [hm]
      · exact ih (n / 2) (by omega) (p + 1)


theorem sumPow_nil : sumPow [] = 0 := rfl

theorem sumPow_cons (q : Nat) (l : List Nat) : sumPow (q :: l) = 2 ^ q + sumPow l := by
  simp [sumPow]

theorem sumPow_reverse (l : List Nat) : sumPow l.reverse = sumPow l := by
  unfold sumPow
  rw [List.map_reverse, List.sum_reverse]

theorem sumPow_append (l₁ l₂ : List Nat) : sumPow (l₁ ++ l₂) = sumPow l₁ + sumPow l₂ := by
  simp [sumPow]

theorem sumPow_singleton (q : Nat) : sumPow [q] = 2 ^ q := by
  simp [sumPow]

theorem sumPow_bitIndicesFrom :
    ∀ n p, sumPow (bitIndicesFrom n p) = n * 2 ^ p := by
  intro n
  induction n using Nat.strong_induction_on with
  | _ n ih =>
    intro p
    rw [bitIndicesFrom_eq]
    by_cases hn : n = 0
    · simp [hn, sumPow]
    · simp only [hn, if_false]
      rw [sumPow_append]
      have htail := ih (n / 2) (by omega) (p + 1)
      have hpow : 2 ^ (p + 1) = 2 ^ p * 2 := pow_succ 2 p
      by_cases hm : n % 2 = 1
      · simp only [hm, if_true]
        rw [sumPow_cons, sumPow_nil, htail, hpow]
        conv_rhs => rw [show n = 2 * (n / 2) + 1 by omega]
        ring
      · simp only [hm, if_false]
        rw [sumPow_nil, htail, hpow]
        conv_rhs => rw [show n = 2 * (n / 2) by omega]
        ring

theorem sumPow_bitIndices (n : Nat) : sumPow (bitIndices n) = n := by
  have := sumPow_bitIndicesFrom n 0
  simpa using this

theorem bitIndicesFrom_mem_iff :
    ∀ n p q, q ∈ bitIndicesFrom n p ↔ (p ≤ q ∧ n.testBit (q - p) = true) := by
  intro n
  induction n using Nat.strong_induction_on with
  | _ n ih =>
    intro p q
    rw [bitIndicesFrom_eq]
    by_cases hn : n = 0
    · simp [hn, Nat.zero_testBit]
    · simp only [hn, if_false, List.mem_append]
      constructor
      · intro h
        rcases h with h | h
        · by_cases hm : n % 2 = 1
          · simp [hm] at h
            refine ⟨by omega, ?_⟩
            rw [show q - p = 0 by omega, Nat.testBit_zero]
            simp [hm]
          · simp [hm] at h
        · have hge := bitIndicesFrom_mem_ge (n / 2) (p + 1) q h
          have hih := (ih (n / 2) (by omega) (p + 1) q).mp h
          refine ⟨by omega, ?_⟩
          have hqp : q - p = (q - (p + 1)) + 1 := by omega
          rw [hqp, Nat.testBit_add_one]
          exact hih.2
      · rintro ⟨hpq, htb⟩
        by_cases hqp : q = p
        · subst hqp
          left
          have hm : n % 2 = 1 := by
            rw [Nat.sub_self, Nat.testBit_zero] at htb
            exact of_decide_eq_true htb
          simp [hm]
        · right
          apply (ih (n / 2) (by omega) (p + 1) q).mpr
          refine ⟨by omega, ?_⟩
          have hqp2 : q - p = (q - (p + 1)) + 1 := by omega
          rw [hqp2, Nat.testBit_add_one] at htb
          exact htb

theorem bitIndices_mem_iff (n q : Nat) :
    q ∈ bitIndices n ↔ n.testBit q = true := by
  have h := bitIndicesFrom_mem_iff n 0 q
  simpa using h

theorem sumPow_map_sub_one (l : List Nat) (h : ∀ v ∈ l, 1 ≤ v) :
    sumPow l = 2 * sumPow (l.map (· - 1)) := by
  induction l with
  | nil => simp [sumPow]
  | cons q rest ih =>
    have hq : 1 ≤ q := h q (by simp)
    have hrest : ∀ v ∈ rest, 1 ≤ v := fun v hv => h v (by simp [hv])
    rw [List.map_cons, sumPow_cons, sumPow_cons, ih hrest]
    have hpow : 2 ^ q = 2 * 2 ^ (q - 1) := by
      conv_lhs => rw [show q = (q - 1) + 1 by omega]
      rw [pow_succ]
      ring
    omega

theorem pairwise_lt_map_sub_one (l : List Nat) (h : ∀ v ∈ l, 1 ≤ v)
    (hp : List.Pairwise (· < ·) l) : List.Pairwise (· < ·) (l.map (· - 1)) := by
  rw [List.pairwise_map]
  refine List.Pairwise.imp_of_mem ?_ hp
  intro a b ha _ hab
  have := h a ha
  omega

theorem bitIndices_sumPow :
    ∀ m l, List.Pairwise (· < ·) l → sumPow l = m → bitIndicesFrom m 0 = l := by
  intro m
  induction m using Nat.strong_induction_on with
  | _ m ih =>
    intro l hl hsum
    cases l with
    | nil =>
      have hm : m = 0 := by rw [← hsum]; rfl
      subst hm
      exact bitIndicesFrom_zero_n 0
    | cons q rest =>
      have hrest_gt : ∀ v ∈ rest, q < v := (List.pairwise_cons.mp hl).1
      have hrest_pw : List.Pairwise (· < ·) rest := (List.pairwise_cons.mp hl).2
      rw [sumPow_cons] at hsum
      by_cases hq : q = 0
      · subst hq
        have hone : ∀ v ∈ rest, 1 ≤ v := fun v hv => by
          have := hrest_gt v hv; omega
        have heven : sumPow rest = 2 * sumPow (rest.map (· - 1)) :=
          sumPow_map_sub_one rest hone
        have hm : m = 1 + 2 * sumPow (rest.map (· - 1)) := by
          rw [← hsum, heven]
          norm_num
        have hm0 : m ≠ 0 := by omega
        have hmod : m % 2 = 1 := by omega
        have hdiv : sumPow (rest.map (· - 1)) = m / 2 := by omega
        rw [bitIndicesFrom_eq, if_neg hm0, if_pos hmod]
        rw [bitIndicesFrom_map_succ (m / 2) 0]
        rw [ih (m / 2) (by omega) (rest.map (· - 1))
          (pairwise_lt_map_sub_one rest hone hrest_pw) hdiv]
        rw [List.map_map]
        have hmapid : rest.map ((· + 1) ∘ (· - 1)) = rest.map id :=
          List.map_congr_left (fun v hv => by have := hone v hv; simp; omega)
        rw [hmapid, List.map_id, List.singleton_append]
      · have hone : ∀ v ∈ q :: rest, 1 ≤ v := by
          intro v hv
          rcases List.mem_cons.mp hv with h | h
          · omega
          · have := hrest_gt v h; omega
        have heven : sumPow (q :: rest) = 2 * sumPow ((q :: rest).map (· - 1)) :=
          sumPow_map_sub_one _ hone
        rw [sumPow_cons] at heven
        have h2q : 2 ≤ 2 ^ q := by
          calc (2 : Nat) = 2 ^ 1 := rfl
          _ ≤ 2 ^ q := Nat.pow_le_pow_right (by omega) (by omega)
        have hm : m = 2 * sumPow ((q :: rest).map (· - 1)) := by omega
        have hm0 : m ≠ 0 := by omega
        have hmod : ¬ m % 2 = 1 := by omega
        have hdiv : sumPow ((q :: rest).map (· - 1)) = m / 2 := by omega
        rw [bitIndicesFrom_eq, if_neg hm0, if_neg hmod]
        rw [bitIndicesFrom_map_succ (m / 2) 0]
        rw [ih (m / 2) (by omega) ((q :: rest).map (· - 1))
          (pairwise_lt_map_sub_one _ hone hl) hdiv]
        rw [List.map_map]
        have hmapid : (q :: rest).map ((· + 1) ∘ (· - 1)) = (q :: rest).map id :=
          List.map_congr_left (fun v hv => by have := hone v hv; simp; omega)
        rw [hmapid, List.map_id, List.nil_append]

theorem sumPow_lt_two_pow :
    ∀ l k, List.Pairwise (· > ·) l → (∀ q ∈ l, q < k) → sumPow l < 2 ^ k := by
  intro l
  induction l with
  | nil =>
    intro k _ _
    simp [sumPow]
  | cons p rest ih =>
    intro k hpw hbnd
    have hrest_lt : ∀ q ∈ rest, q < p := (List.pairwise_cons.mp hpw).1
    have hrest_pw : List.Pairwise (· > ·) rest := (List.pairwise_cons.mp hpw).2
    have hp : p < k := hbnd p (by simp)
    have htail : sumPow rest < 2 ^ p := ih p hrest_pw hrest_lt
    rw [sumPow_cons]
    have hstep : 2 ^ p + 2 ^ p = 2 ^ (p + 1) := by rw [pow_succ]; ring
    have hle : 2 ^ (p + 1) ≤ 2 ^ k := Nat.pow_le_pow_right (by omega) (by omega)
    omega

theorem or_div_two (m n : Nat) : (m ||| n) / 2 = m / 2 ||| n / 2 := by
  apply Nat.eq_of_testBit_eq
  intro i
  rw [Nat.testBit_div_two, Nat.testBit_or, Nat.testBit_or, Nat.testBit_div_two,
    Nat.testBit_div_two]

theorem and_div_two (m n : Nat) : (m &&& n) / 2 = m / 2 &&& n / 2 := by
  apply Nat.eq_of_testBit_eq
  intro i
  rw [Nat.testBit_div_two, Nat.testBit_and, Nat.testBit_and, Nat.testBit_div_two,
    Nat.testBit_div_two]

theorem or_mod_two_of_and_eq_zero (m n : Nat) (h : m &&& n = 0) :
    (m ||| n) % 2 = m % 2 + n % 2 := by
  have h1 := Nat.testBit_or m n 0
  have h2 := Nat.testBit_and m n 0
  rw [h, Nat.zero_testBit] at h2
  rw [Nat.testBit_zero, Nat.testBit_zero, Nat.testBit_zero, ← Bool.decide_or] at h1
  rw [Nat.testBit_zero, Nat.testBit_zero, ← Bool.decide_and] at h2
  have hor : ((m ||| n) % 2 = 1) ↔ (m % 2 = 1 ∨ n % 2 = 1) := decide_eq_decide.mp h1
  have hand : ¬(m % 2 = 1 ∧ n % 2 = 1) := of_decide_eq_false h2.symm
  omega

theorem left_eq_zero_of_or_eq_zero (m n : Nat) (h : m ||| n = 0) : m = 0 := by
  apply Nat.eq_of_testBit_eq
  intro i
  have htb := Nat.testBit_or m n i
  rw [h, Nat.zero_testBit] at htb
  rw [Nat.zero_testBit]
  exact (Bool.or_eq_false_iff.mp htb.symm).1

theorem popCount_or_of_and_eq_zero :
    ∀ m n, m &&& n = 0 → popCount (m ||| n) = popCount m + popCount n := by
  intro m
  induction m using Nat.strong_induction_on with
  | _ m ih =>
    intro n h
    by_cases hm : m = 0
    · subst hm
      rw [Nat.zero_or]
      have h0 : popCount 0 = 0 := rfl
      omega
    · have hd2 : m / 2 &&& n / 2 = 0 := by
        rw [← and_div_two, h]
      rw [popCount_rec (m ||| n), or_div_two, or_mod_two_of_and_eq_zero m n h,
        ih (m / 2) (by omega) (n / 2) hd2, popCount_rec m, popCount_rec n]
      omega

/-- C10: `swap` exchanges the two masks: after `a.swap(b)` the receiver
holds b's original mask and the argument holds a's original mask; a
CardSet consists of nothing but `_cardmask`, so the entire states are
exchanged and nothing else changes. -/
theorem swap_exchanges_masks (a b : CardSet) :
    (a.swap b).1 = b ∧ (a.swap b).2 = a := by
  constructor <;> rfl

/-- C7: for every pair of disjoint card sets, the size of their union is
the sum of their sizes. -/
theorem size_disjoint_union (a b : CardSet) (h : a.disjoint b = true) :
    (a.or b).size = a.size + b.size := by
  have hz : a.cardmask &&& b.cardmask = 0 := by
    simpa [CardSet.disjoint] using h
  exact popCount_or_of_and_eq_zero _ _ hz

/-- C7 witness: the theorem applied to the concrete disjoint sets with
masks 5 and 2. -/
theorem size_disjoint_union_witness :
    (CardSet.mk 5).disjoint (CardSet.mk 2) = true ∧
    ((CardSet.mk 5).or (CardSet.mk 2)).size = (CardSet.mk 5).size + (CardSet.mk 2).size :=
  ⟨by decide, size_disjoint_union (CardSet.mk 5) (CardSet.mk 2) (by decide)⟩

theorem charIdx_lt_length :
    ∀ (l : List Char) (c : Char) (i : Nat), charIdx l c = some i → i < l.length := by
  intro l
  induction l with
  | nil => intro c i h; simp [charIdx] at h
  | cons a as ih =>
    intro c i h
    simp only [charIdx] at h
    by_cases ha : (a == c) = true
    · simp [ha] at h
      simp only [List.length_cons]
      omega
    · simp [ha] at h
      rcases h with ⟨j, hj, hji⟩
      have := ih c j hj
      simp only [List.length_cons]
      omega

theorem parseRankChar_lt (c : Char) (rk : Nat) (h : parseRankChar c = some rk) : rk < 13 := by
  have h1 := charIdx_lt_length rankChars c rk h
  have h2 : rankChars.length = 13 := rfl
  omega

theorem parseSuitChar_lt (c : Char) (st : Nat) (h : parseSuitChar c = some st) : st < 4 := by
  have h1 := charIdx_lt_length suitCharsAscii c st h
  have h2 : suitCharsAscii.length = 4 := rfl
  omega

theorem one_shiftLeft_lt_two_pow {c k : Nat} (h : c < k) : 1 <<< c < 2 ^ k := by
  rw [Nat.one_shiftLeft]
  exact Nat.pow_lt_pow_right (by omega) h

theorem fromCharsAux_lt :
    ∀ (k : Nat) (s : List Char), s.length ≤ k → ∀ acc, acc < 2 ^ 52 →
      fromCharsAux s acc < 2 ^ 52 := by
  intro k
  induction k with
  | zero =>
    intro s hs acc hacc
    have hnil : s = [] := by cases s <;> simp_all
    subst hnil
    simpa [fromCharsAux] using hacc
  | succ k ih =>
    intro s hs acc hacc
    match s with
    | [] => simpa [fromCharsAux] using hacc
    | [c] => simpa [fromCharsAux] using hacc
    | r :: sc :: rest =>
      simp only [fromCharsAux]
      cases hr : parseRankChar r with
      | none => simpa [hr] using hacc
      | some rk =>
        cases hsu : parseSuitChar sc with
        | none => simpa [hr, hsu] using hacc
        | some st =>
          simp only
          have hrk := parseRankChar_lt r rk hr
          have hst := parseSuitChar_lt sc st hsu
          have hbit : 1 <<< (st * 13 + rk) < 2 ^ 52 :=
            one_shiftLeft_lt_two_pow (by omega)
          have hlen : rest.length ≤ k := by
            simp only [List.length_cons] at hs
            omega
          exact ih rest hlen _ (Nat.or_lt_two_pow hacc hbit)

/-- C1 counterexample: the claim fails on the code as written: `fill`
(whose body is inline in CardSet.h line 53) complements a 64-bit zero, so
the resulting mask has bit 52 set, which lies outside the 52 meaningful
card positions. -/
theorem fill_sets_bit_outside_deck :
    Nat.testBit (CardSet.fill CardSet.empty).cardmask 52 = true ∧
    2 ^ 52 ≤ (CardSet.fill CardSet.empty).cardmask := by
  constructor
  · decide
  · decide

/-- C1 amended: every public operation other than `fill` (and other than
raw-mask construction from a value that itself has bits outside the 52
card positions) preserves the invariant that no bit outside the 52
meaningful (rank, suit) positions is set: construction
empty/single-card/string-parsed/in-range-raw-mask, clear, insert, remove,
and the bitwise set-algebra operators all yield masks below 2 ^ 52.
(`fill` violates the invariant, see the counterexample.) -/
theorem mask_invariant_amended :
    CardSet.empty.cardmask < 2 ^ 52 ∧
    (∀ m : Nat, m < 2 ^ 52 → (CardSet.ofMask m).cardmask < 2 ^ 52) ∧
    (∀ c : Card, c.rank < 13 → c.suit < 4 → (CardSet.single c).cardmask < 2 ^ 52) ∧
    (∀ s : List Char, (CardSet.fromString s).cardmask < 2 ^ 52) ∧
    (∀ x : CardSet, (x.clear).cardmask < 2 ^ 52) ∧
    (∀ (x : CardSet) (c : Card), x.cardmask < 2 ^ 52 → c.rank < 13 → c.suit < 4 →
      (x.insertCard c).cardmask < 2 ^ 52) ∧
    (∀ (x : CardSet) (c : Card), x.cardmask < 2 ^ 52 →
      (x.removeCard c).cardmask < 2 ^ 52) ∧
    (∀ x y : CardSet, x.cardmask < 2 ^ 52 → y.cardmask < 2 ^ 52 →
      (x.insertSet y).cardmask < 2 ^ 52 ∧ (x.removeSet y).cardmask < 2 ^ 52 ∧
      (x.and y).cardmask < 2 ^ 52 ∧ (x.or y).cardmask < 2 ^ 52 ∧
      (x.xor y).cardmask < 2 ^ 52 ∧ (x.orAssign y).cardmask < 2 ^ 52 ∧
      (x.xorAssign y).cardmask < 2 ^ 52) := by
  refine ⟨by decide, ?_, ?_, ?_, ?_, ?_, ?_, ?_⟩
  · intro m hm
    show m % 2 ^ 64 < 2 ^ 52
    have : m % 2 ^ 64 ≤ m := Nat.mod_le m (2 ^ 64)
    omega
  · intro c hr hsu
    show 1 <<< c.code < 2 ^ 52
    have : c.code < 52 := by
      unfold Card.code
      omega
    exact one_shiftLeft_lt_two_pow this
  · intro s
    exact fromCharsAux_lt s.length s (le_refl _) 0 (by decide)
  · intro x
    show (0 : Nat) < 2 ^ 52
    decide
  · intro x c hx hr hsu
    have hbit : 1 <<< c.code < 2 ^ 52 :=
      one_shiftLeft_lt_two_pow (by unfold Card.code; omega)
    exact Nat.or_lt_two_pow hx hbit
  · intro x c hx
    exact lt_of_le_of_lt Nat.and_le_left hx
  · intro x y hx hy
    refine ⟨Nat.or_lt_two_pow hx hy, lt_of_le_of_lt Nat.and_le_left hx,
      lt_of_le_of_lt Nat.and_le_left hx, Nat.or_lt_two_pow hx hy,
      Nat.xor_lt_two_pow hx hy, Nat.or_lt_two_pow hx hy, Nat.xor_lt_two_pow hx hy⟩

/-- C1 amended witness: the amended theorem applied at concrete inputs:
the raw-mask clause at mask 3 and the insert clause at the ace of spades
on the empty set. -/
theorem mask_invariant_amended_witness :
    (3 : Nat) < 2 ^ 52 ∧ (CardSet.ofMask 3).cardmask < 2 ^ 52 ∧
    (CardSet.insertCard CardSet.empty (Card.mk 12 3)).cardmask < 2 ^ 52 :=
  ⟨by decide, mask_invariant_amended.2.1 3 (by decide),
    mask_invariant_amended.2.2.2.2.2.1 CardSet.empty (Card.mk 12 3)
      (by decide) (by decide) (by decide)⟩

theorem suitMask_lt (x : CardSet) (s : Nat) : x.suitMask s < 2 ^ 13 := by
  unfold CardSet.suitMask
  have h : (x.cardmask >>> (13 * s)) &&& (2 ^ 13 - 1) ≤ 2 ^ 13 - 1 := Nat.and_le_right
  omega

theorem rankMask_lt (x : CardSet) : x.rankMask < 2 ^ 13 := by
  unfold CardSet.rankMask
  exact Nat.or_lt_two_pow
    (Nat.or_lt_two_pow (Nat.or_lt_two_pow (suitMask_lt x 0) (suitMask_lt x 1))
      (suitMask_lt x 2)) (suitMask_lt x 3)

/-- C6: `hasStraight` is true exactly when the 13-bit rank mask contains
five consecutive set bits, counting the ace-low wheel A-2-3-4-5 (rank
bits 12, 0, 1, 2, 3) as five consecutive bits. -/
theorem and_eq_self_of_testBit_le (r m : Nat)
    (h : ∀ j, m.testBit j = true → r.testBit j = true) : r &&& m = m := by
  apply Nat.eq_of_testBit_eq
  intro j
  rw [Nat.testBit_and]
  cases hm : m.testBit j with
  | false => simp
  | true => simp [h j hm]

theorem testBit_of_and_eq (r m j : Nat) (h : r &&& m = m) (hm : m.testBit j = true) :
    r.testBit j = true := by
  have hc := congrArg (fun z => Nat.testBit z j) h
  simp only [Nat.testBit_and] at hc
  rw [hm, Bool.and_true] at hc
  exact hc

theorem hasStraight_iff_five_consecutive (x : CardSet) :
    x.hasStraight = true ↔
      ((∃ i, i < 9 ∧ ∀ j, j < 5 → Nat.testBit x.rankMask (i + j) = true) ∨
       (Nat.testBit x.rankMask 12 = true ∧ ∀ j, j < 4 → Nat.testBit x.rankMask j = true)) := by
  have hb := rankMask_lt x
  show hasStraightRanks x.rankMask = true ↔ _
  set r := x.rankMask with hrdef
  unfold hasStraightRanks
  rw [Bool.or_eq_true, bne_iff_ne, beq_iff_eq]
  constructor
  · intro h
    rcases h with hA | hW
    · obtain ⟨i, hi⟩ : ∃ i,
          (r &&& (r >>> 1) &&& (r >>> 2) &&& (r >>> 3) &&& (r >>> 4)).testBit i = true := by
        by_contra hc
        push_neg at hc
        apply hA
        apply Nat.eq_of_testBit_eq
        intro j
        rw [Nat.zero_testBit]
        cases hcase : (r &&& (r >>> 1) &&& (r >>> 2) &&& (r >>> 3) &&& (r >>> 4)).testBit j with
        | false => rfl
        | true => exact absurd hcase (hc j)
      rw [Nat.testBit_and, Nat.testBit_and, Nat.testBit_and, Nat.testBit_and,
        Nat.testBit_shiftRight, Nat.testBit_shiftRight, Nat.testBit_shiftRight,
        Nat.testBit_shiftRight] at hi
      simp only [Bool.and_eq_true] at hi
      obtain ⟨⟨⟨⟨h0, h1⟩, h2⟩, h3⟩, h4⟩ := hi
      left
      have hlt : 4 + i < 13 := by
        by_contra hge
        have hpow : r < 2 ^ (4 + i) :=
          lt_of_lt_of_le hb (Nat.pow_le_pow_right (by omega) (by omega))
        rw [Nat.testBit_lt_two_pow hpow] at h4
        exact Bool.false_ne_true h4
      refine ⟨i, by omega, ?_⟩
      intro j hj
      interval_cases j
      · simpa using h0
      · rw [show i + 1 = 1 + i by omega]; exact h1
      · rw [show i + 2 = 2 + i by omega]; exact h2
      · rw [show i + 3 = 3 + i by omega]; exact h3
      · rw [show i + 4 = 4 + i by omega]; exact h4
    · right
      refine ⟨testBit_of_and_eq r 4111 12 hW (by decide), ?_⟩
      intro j hj
      have hm : Nat.testBit 4111 j = true := by interval_cases j <;> decide
      exact testBit_of_and_eq r 4111 j hW hm
  · intro h
    rcases h with ⟨i, hi9, hcons⟩ | ⟨h12, hlow⟩
    · left
      have h0 := hcons 0 (by omega)
      have h1 := hcons 1 (by omega)
      have h2 := hcons 2 (by omega)
      have h3 := hcons 3 (by omega)
      have h4 := hcons 4 (by omega)
      have hbit : (r &&& (r >>> 1) &&& (r >>> 2) &&& (r >>> 3) &&& (r >>> 4)).testBit i
          = true := by
        rw [Nat.testBit_and, Nat.testBit_and, Nat.testBit_and, Nat.testBit_and,
          Nat.testBit_shiftRight, Nat.testBit_shiftRight, Nat.testBit_shiftRight,
          Nat.testBit_shiftRight]
        rw [show (1 : Nat) + i = i + 1 by omega, show (2 : Nat) + i = i + 2 by omega,
          show (3 : Nat) + i = i + 3 by omega, show (4 : Nat) + i = i + 4 by omega]
        have h0' : r.testBit i = true := by simpa using h0
        simp [h0', h1, h2, h3, h4]
      intro hz
      rw [hz, Nat.zero_testBit] at hbit
      exact Bool.false_ne_true hbit
    · right
      apply and_eq_self_of_testBit_le
      intro j hm
      have hj13 : j < 13 := by
        by_contra hge
        have hpow : (4111 : Nat) < 2 ^ j := by
          calc (4111 : Nat) < 2 ^ 13 := by decide
          _ ≤ 2 ^ j := Nat.pow_le_pow_right (by omega) (by omega)
        rw [Nat.testBit_lt_two_pow hpow] at hm
        exact Bool.false_ne_true hm
      interval_cases j <;>
        first
          | exact absurd hm (by decide)
          | exact h12
          | exact hlow 0 (by omega)
          | exact hlow 1 (by omega)
          | exact hlow 2 (by omega)
          | exact hlow 3 (by omega)

/-- C6 witness: the theorem applied to a concrete set holding the ranks 2
through 6 of clubs; the straight is detected. -/
theorem hasStraight_iff_five_consecutive_witness :
    (CardSet.mk 31).hasStraight = true :=
  (hasStraight_iff_five_consecutive (CardSet.mk 31)).mpr (by decide)

/-- C4: `evaluateStraightOuts` classifies straight draws by the number of
unseen single ranks completing a straight: it returns 8 (open-ended) when
two or more ranks complete, 4 (gutshot) when exactly one does, 1 when no
single rank completes but a pair of distinct absent ranks would
(runner-runner), and 0 when no straight draw exists; in particular on the
rank sets {5,6,7,8} it returns 8 (the completing ranks are the 4 and the
9) and on {5,6,7,9} it returns 4 (only the 8 completes). -/
theorem evaluateStraightOuts_spec :
    (∀ x : CardSet, 2 ≤ (straightCompleters x.rankMask).length →
      x.evaluateStraightOuts = 8) ∧
    (∀ x : CardSet, (straightCompleters x.rankMask).length = 1 →
      x.evaluateStraightOuts = 4) ∧
    (∀ x : CardSet, (straightCompleters x.rankMask).length = 0 →
      runnerRunnerDraw x.rankMask = true → x.evaluateStraightOuts = 1) ∧
    (∀ x : CardSet, (straightCompleters x.rankMask).length = 0 →
      runnerRunnerDraw x.rankMask = false → x.evaluateStraightOuts = 0) ∧
    (CardSet.mk 120).evaluateStraightOuts = 8 ∧
    straightCompleters (CardSet.mk 120).rankMask = [2, 7] ∧
    (CardSet.mk 184).evaluateStraightOuts = 4 ∧
    straightCompleters (CardSet.mk 184).rankMask = [6] ∧
    (CardSet.mk 2073).evaluateStraightOuts = 1 ∧
    (CardSet.mk 3105).evaluateStraightOuts = 0 := by
  refine ⟨?_, ?_, ?_, ?_, by decide, by decide, by decide, by decide, by decide, by decide⟩
  · intro x h
    unfold CardSet.evaluateStraightOuts
    simp only
    rw [if_pos h]
  · intro x h
    unfold CardSet.evaluateStraightOuts
    simp only
    rw [if_neg (by omega), if_pos h]
  · intro x h hr
    unfold CardSet.evaluateStraightOuts
    simp only
    rw [if_neg (by omega), if_neg (by omega), if_pos hr]
  · intro x h hr
    unfold CardSet.evaluateStraightOuts
    simp only
    rw [if_neg (by omega), if_neg (by omega), if_neg (by simp [hr])]

/-- C4 witness: the open-ended clause of the theorem applied to the
concrete rank set {5,6,7,8} of clubs. -/
theorem evaluateStraightOuts_spec_witness :
    (CardSet.mk 120).evaluateStraightOuts = 8 :=
  evaluateStraightOuts_spec.1 (CardSet.mk 120) (by decide)

theorem parseRank_rankCharOf : ∀ r, r < 13 → parseRankChar (rankCharOf r) = some r := by
  decide

theorem parseSuit_suitCharAscii : ∀ s, s < 4 → parseSuitChar (suitCharOf .suitAscii s) = some s := by
  decide

theorem fromCharsAux_badHead (rest : List Char) (acc : Nat)
    (hbad : headTokenBad rest = true) : fromCharsAux rest acc = acc := by
  match rest with
  | [] => rfl
  | [c] => rfl
  | r :: s :: t =>
    simp only [headTokenBad, Bool.or_eq_true, Option.isNone_iff_eq_none] at hbad
    rcases hbad with h | h
    · simp [fromCharsAux, h]
    · cases hr : parseRankChar r <;> simp [fromCharsAux, hr, h]

theorem fromCharsAux_render :
    ∀ (cs : List Card) (rest : List Char) (acc : Nat),
      (∀ c ∈ cs, c.rank < 13 ∧ c.suit < 4) → headTokenBad rest = true →
      fromCharsAux (renderCards cs ++ rest) acc =
        cs.foldl (fun a c => a ||| (1 <<< c.code)) acc := by
  intro cs
  induction cs with
  | nil =>
    intro rest acc _ hbad
    simp only [renderCards, List.foldr_nil, List.nil_append, List.foldl_nil]
    exact fromCharsAux_badHead rest acc hbad
  | cons c cs ih =>
    intro rest acc hval hbad
    have hc := hval c (by simp)
    have hcs : ∀ c' ∈ cs, c'.rank < 13 ∧ c'.suit < 4 := fun c' h' => hval c' (by simp [h'])
    have hrend : renderCards (c :: cs) =
        rankCharOf c.rank :: suitCharOf .suitAscii c.suit :: renderCards cs := rfl
    rw [hrend]
    simp only [List.cons_append]
    simp only [fromCharsAux, parseRank_rankCharOf c.rank hc.1,
      parseSuit_suitCharAscii c.suit hc.2]
    rw [ih rest _ hcs hbad]
    rfl

/-- C8: parsing consumes card tokens left to right and stops at the first
token it cannot interpret, returning exactly the set of all cards parsed
before that token (partial results are retained, never discarded): for
every list of valid cards and every remainder whose head token is
uninterpretable, parsing the rendering of the cards followed by the
remainder yields exactly the left-to-right insertion of those cards into
the empty set.  `fromString` is a total function, so malformed input
never causes abrupt failure. -/
theorem fromString_partial_parse (cs : List Card) (rest : List Char)
    (hval : ∀ c ∈ cs, c.rank < 13 ∧ c.suit < 4) (hbad : headTokenBad rest = true) :
    CardSet.fromString (renderCards cs ++ rest) = CardSet.mk (maskOfCards cs) := by
  unfold CardSet.fromString maskOfCards
  congr 1
  exact fromCharsAux_render cs rest 0 hval hbad

/-- C8 witness: the theorem applied to the card list [Ac] followed by the
unparseable remainder "x": the parse keeps the ace of clubs and stops. -/
theorem fromString_partial_parse_witness :
    CardSet.fromString (renderCards [Card.mk 12 0] ++ ['x']) =
      CardSet.mk (maskOfCards [Card.mk 12 0]) :=
  fromString_partial_parse [Card.mk 12 0] ['x'] (by decide) (by decide)

theorem testBit_orPow (l : List Nat) (q : Nat) :
    (orPow l).testBit q = true ↔ q ∈ l := by
  induction l with
  | nil => simp [orPow, Nat.zero_testBit]
  | cons c t ih =>
    have hstep : orPow (c :: t) = (1 <<< c) ||| orPow t := rfl
    rw [hstep, Nat.testBit_or, Bool.or_eq_true]
    have hsh : (1 <<< c).testBit q = true ↔ q = c := by
      rw [Nat.testBit_shiftLeft, Bool.and_eq_true]
      constructor
      · rintro ⟨hge, h1⟩
        have hge' : c ≤ q := by
          have := of_decide_eq_true hge
          omega
        by_contra hne
        have hpos : 1 ≤ q - c := by omega
        have h2 : (1 : Nat).testBit (q - c) = false := by
          apply Nat.testBit_lt_two_pow
          calc (1 : Nat) < 2 ^ 1 := by decide
          _ ≤ 2 ^ (q - c) := Nat.pow_le_pow_right (by omega) hpos
        rw [h2] at h1
        exact Bool.false_ne_true h1
      · intro h
        subst h
        rw [Nat.sub_self]
        have h1 : Nat.testBit 1 0 = true := by decide
        simp [h1]
    rw [hsh, ih, List.mem_cons]

theorem orPow_bitIndices (m : Nat) : orPow (bitIndices m) = m := by
  apply Nat.eq_of_testBit_eq
  intro q
  rw [Bool.eq_iff_iff, testBit_orPow]
  exact bitIndices_mem_iff m q

theorem fromCharsAux_tokens :
    ∀ (l : List Nat) (acc : Nat), (∀ c ∈ l, c < 52) →
      fromCharsAux
        (l.foldr (fun c acc2 =>
          rankCharOf (c % 13) :: suitCharOf .suitAscii (c / 13) :: acc2) []) acc
        = acc ||| orPow l := by
  intro l
  induction l with
  | nil =>
    intro acc _
    have h0 : orPow [] = 0 := rfl
    simp [fromCharsAux, h0]
  | cons c t ih =>
    intro acc h
    have hc := h c (by simp)
    have hrk : c % 13 < 13 := by omega
    have hst : c / 13 < 4 := by omega
    simp only [List.foldr_cons]
    simp only [fromCharsAux, parseRank_rankCharOf (c % 13) hrk,
      parseSuit_suitCharAscii (c / 13) hst]
    rw [show c / 13 * 13 + c % 13 = c by omega]
    rw [ih _ (fun c' h' => h c' (by simp [h']))]
    rw [Nat.or_assoc]
    rfl

/-- C9: under the designated SUIT_ASCII display convention, string
serialization round-trips: parsing the printed token string of any
in-range card set yields the same set; under another display convention
(the unicode pips) the round trip fails on a concrete one-card set, so it
need not hold. -/
theorem str_roundtrip_ascii :
    (∀ x : CardSet, x.cardmask < 2 ^ 52 →
      CardSet.fromString (x.strChars .suitAscii) = x) ∧
    (∃ x : CardSet, x.cardmask < 2 ^ 52 ∧
      CardSet.fromString (x.strChars .suitUnicode) ≠ x) := by
  constructor
  · intro x hx
    cases x with
    | mk m =>
      unfold CardSet.fromString CardSet.strChars
      congr 1
      have hall : ∀ c ∈ bitIndices m, c < 52 := by
        intro c hc
        have := bitIndicesFrom_mem_lt m 52 0 c hx hc
        omega
      rw [fromCharsAux_tokens (bitIndices m) 0 hall, Nat.zero_or, orPow_bitIndices]
  · exact ⟨CardSet.mk 1, by decide, by decide⟩

/-- C9 witness: the round-trip clause applied to the singleton set holding
the ace of clubs. -/
theorem str_roundtrip_ascii_witness :
    CardSet.fromString ((CardSet.mk 4096).strChars .suitAscii) = CardSet.mk 4096 :=
  str_roundtrip_ascii.1 (CardSet.mk 4096) (by decide)

theorem lowVal_ge_one (r : Nat) : 1 ≤ lowVal r := by
  unfold lowVal
  split <;> omega

theorem lowVal_injOn_ranks : ∀ a b : Nat, a < 13 → b < 13 → lowVal a = lowVal b → a = b := by
  intro a b ha hb hab
  unfold lowVal at hab
  split_ifs at hab <;> omega

theorem mem_ranksOf_lt (x : CardSet) (r : Nat) (h : r ∈ x.ranksOf) : r < 13 := by
  unfold CardSet.ranksOf at h
  have := Finset.mem_filter.mp h
  exact Finset.mem_range.mp this.1

theorem mem_lowRanks_le8 (x : CardSet) (r : Nat) (h : r ∈ x.lowRanksLE8) :
    r ∈ x.ranksOf ∧ lowVal r ≤ 8 := by
  unfold CardSet.lowRanksLE8 at h
  have := Finset.mem_filter.mp h
  exact ⟨this.1, by simpa using this.2⟩

theorem lowValsAsc_mem (x : CardSet) (v : Nat) :
    v ∈ x.lowValsAsc ↔ v ∈ x.lowRanksLE8.image lowVal := by
  unfold CardSet.lowValsAsc
  rw [List.mem_filter]
  constructor
  · intro h
    simpa using h.2
  · intro h
    refine ⟨?_, by simpa using h⟩
    rw [List.mem_range]
    obtain ⟨r, hr, hrv⟩ := Finset.mem_image.mp h
    have hr13 := mem_ranksOf_lt x r (mem_lowRanks_le8 x r hr).1
    unfold lowVal at hrv
    split_ifs at hrv <;> omega

theorem lowValsAsc_pairwise (x : CardSet) : List.Pairwise (· < ·) x.lowValsAsc := by
  unfold CardSet.lowValsAsc
  exact (List.pairwise_lt_range 14).sublist (List.filter_sublist _)

theorem lowValsAsc_ge_one (x : CardSet) : ∀ v ∈ x.lowValsAsc, 1 ≤ v := by
  intro v hv
  obtain ⟨r, _, hrv⟩ := Finset.mem_image.mp ((lowValsAsc_mem x v).mp hv)
  rw [← hrv]
  exact lowVal_ge_one r

theorem lowValsAsc_le8 (x : CardSet) : ∀ v ∈ x.lowValsAsc, v ≤ 8 := by
  intro v hv
  obtain ⟨r, hr, hrv⟩ := Finset.mem_image.mp ((lowValsAsc_mem x v).mp hv)
  rw [← hrv]
  exact (mem_lowRanks_le8 x r hr).2

theorem lowValsAsc_length (x : CardSet) : x.lowValsAsc.length = x.lowRanksLE8.card := by
  have hnd : x.lowValsAsc.Nodup := (List.nodup_range 14).filter _
  have htf : x.lowValsAsc.toFinset = x.lowRanksLE8.image lowVal := by
    ext v
    rw [List.mem_toFinset, lowValsAsc_mem]
  have hlen : x.lowValsAsc.toFinset.card = x.lowValsAsc.length :=
    List.toFinset_card_of_nodup hnd
  have himg : (x.lowRanksLE8.image lowVal).card = x.lowRanksLE8.card := by
    apply Finset.card_image_of_injOn
    intro a ha b hb hab
    exact lowVal_injOn_ranks a b
      (mem_ranksOf_lt x a (mem_lowRanks_le8 x a ha).1)
      (mem_ranksOf_lt x b (mem_lowRanks_le8 x b hb).1) hab
  rw [← hlen, htf, himg]

theorem lowKey5_lt : ∀ l : List Nat, (∀ v ∈ l, v < 16) → lowKey5 l < 16 ^ l.length := by
  intro l
  induction l with
  | nil => intro _; simp [lowKey5]
  | cons v t ih =>
    intro h
    have hv := h v (by simp)
    have ht := ih (fun w hw => h w (by simp [hw]))
    have hstep : lowKey5 (v :: t) = lowKey5 t * 16 + v := rfl
    have hpow : 16 ^ (t.length + 1) = 16 ^ t.length * 16 := pow_succ 16 t.length
    rw [hstep, List.length_cons, hpow]
    omega

theorem lowKey5_le_pointwise :
    ∀ (l₁ l₂ : List Nat), l₁.length = l₂.length →
      (∀ (i : Nat) (h₁ : i < l₁.length) (h₂ : i < l₂.length),
        l₁.get ⟨i, h₁⟩ ≤ l₂.get ⟨i, h₂⟩) →
      lowKey5 l₁ ≤ lowKey5 l₂ := by
  intro l₁
  induction l₁ with
  | nil =>
    intro l₂ hlen _
    cases l₂ with
    | nil => exact le_refl _
    | cons b t₂ => simp at hlen
  | cons a t₁ ih =>
    intro l₂ hlen hpw
    cases l₂ with
    | nil => simp at hlen
    | cons b t₂ =>
      have hlen' : t₁.length = t₂.length := by simpa using hlen
      have hhead : a ≤ b := hpw 0 (by simp) (by simp)
      have htail : lowKey5 t₁ ≤ lowKey5 t₂ := by
        apply ih t₂ hlen'
        intro i h₁ h₂
        exact hpw (i + 1) (by simpa using Nat.succ_lt_succ h₁)
          (by simpa using Nat.succ_lt_succ h₂)
      have h1 : lowKey5 (a :: t₁) = lowKey5 t₁ * 16 + a := rfl
      have h2 : lowKey5 (b :: t₂) = lowKey5 t₂ * 16 + b := rfl
      rw [h1, h2]
      omega

theorem get_ge_of_pairwise_lt :
    ∀ (l : List Nat) (m : Nat), List.Pairwise (· < ·) l → (∀ v ∈ l, m ≤ v) →
      ∀ (i : Nat) (h : i < l.length), m + i ≤ l.get ⟨i, h⟩ := by
  intro l
  induction l with
  | nil => intro m _ _ i h; simp at h
  | cons a t ih =>
    intro m hp hge i h
    cases i with
    | zero =>
      simpa using hge a (by simp)
    | succ j =>
      have hgt := (List.pairwise_cons.mp hp).1
      have hpt := (List.pairwise_cons.mp hp).2
      have ha : m ≤ a := hge a (by simp)
      have hget : (a :: t).get ⟨j + 1, h⟩ = t.get ⟨j, by simpa using h⟩ := rfl
      rw [hget]
      have := ih (m + 1) hpt (fun v hv => by have := hgt v hv; omega) j (by simpa using h)
      omega

theorem evaluate8LowA5_eq_zero_iff_card (x : CardSet) :
    x.evaluate8LowA5 = 0 ↔ x.lowRanksLE8.card < 5 := by
  unfold CardSet.evaluate8LowA5
  by_cases hq : 5 ≤ x.lowRanksLE8.card
  · rw [if_pos hq]
    constructor
    · intro h0
      exfalso
      have hmem : ∀ v ∈ x.lowValsAsc.take 5, v < 16 := by
        intro v hv
        have := lowValsAsc_le8 x v (List.mem_of_mem_take hv)
        omega
      have hb := lowKey5_lt (x.lowValsAsc.take 5) hmem
      have hlen : (x.lowValsAsc.take 5).length ≤ 5 := by
        rw [List.length_take]
        omega
      have hle : 16 ^ (x.lowValsAsc.take 5).length ≤ 16 ^ 5 :=
        Nat.pow_le_pow_right (by omega) hlen
      have hklt : lowKey5 (x.lowValsAsc.take 5) < 16 ^ 5 := lt_of_lt_of_le hb hle
      have := Nat.sub_eq_zero_iff_le.mp h0
      omega
    · intro h
      omega
  · rw [if_neg hq]
    exact ⟨fun _ => by omega, fun _ => rfl⟩

theorem lowRanks_card_iff_subsets (x : CardSet) :
    x.lowRanksLE8.card < 5 ↔
      ∀ S : Finset Nat, S ⊆ x.ranksOf → S.card = 5 → ∃ r ∈ S, 8 < lowVal r := by
  constructor
  · intro hc S hS hcard
    by_contra hno
    push_neg at hno
    have hsub : S ⊆ x.lowRanksLE8 := by
      intro r hr
      unfold CardSet.lowRanksLE8
      rw [Finset.mem_filter]
      exact ⟨hS hr, hno r hr⟩
    have := Finset.card_le_card hsub
    omega
  · intro hall
    by_contra h5
    push_neg at h5
    obtain ⟨S, hS, hcard⟩ := Finset.exists_subset_card_eq h5
    have hSr : S ⊆ x.ranksOf := fun r hr => (mem_lowRanks_le8 x r (hS hr)).1
    obtain ⟨r, hrS, hr8⟩ := hall S hSr hcard
    have := (mem_lowRanks_le8 x r (hS hrS)).2
    omega

theorem evaluate8LowA5_wheel (x : CardSet)
    (hR : x.ranksOf = ({0, 1, 2, 3, 12} : Finset Nat)) :
    x.evaluate8LowA5 = 16 ^ 5 - lowKey5 [1, 2, 3, 4, 5] := by
  have hQ : x.lowRanksLE8 = ({0, 1, 2, 3, 12} : Finset Nat) := by
    unfold CardSet.lowRanksLE8
    rw [hR]
    decide
  have hL : x.lowValsAsc = [1, 2, 3, 4, 5] := by
    unfold CardSet.lowValsAsc
    rw [hQ]
    decide
  unfold CardSet.evaluate8LowA5
  rw [hQ, hL]
  rfl

theorem evaluate8LowA5_le_wheelValue (y : CardSet) :
    y.evaluate8LowA5 ≤ 16 ^ 5 - lowKey5 [1, 2, 3, 4, 5] := by
  unfold CardSet.evaluate8LowA5
  by_cases hq : 5 ≤ y.lowRanksLE8.card
  · rw [if_pos hq]
    have hlenf : y.lowValsAsc.length = y.lowRanksLE8.card := lowValsAsc_length y
    have hlen5 : (y.lowValsAsc.take 5).length = 5 := by
      rw [List.length_take]
      omega
    have hkey : lowKey5 [1, 2, 3, 4, 5] ≤ lowKey5 (y.lowValsAsc.take 5) := by
      apply lowKey5_le_pointwise
      · rw [hlen5]
        rfl
      · intro i h₁ h₂
        have hi5 : i < 5 := by simpa using h₁
        have hil : i < y.lowValsAsc.length := by omega
        have hg2 : (y.lowValsAsc.take 5).get ⟨i, h₂⟩ = y.lowValsAsc.get ⟨i, hil⟩ := by
          simp [List.get_take]
        have hg3 : 1 + i ≤ y.lowValsAsc.get ⟨i, hil⟩ :=
          get_ge_of_pairwise_lt y.lowValsAsc 1 (lowValsAsc_pairwise y)
            (lowValsAsc_ge_one y) i hil
        have hl1 : ([1, 2, 3, 4, 5] : List Nat).get ⟨i, h₁⟩ = i + 1 := by
          interval_cases i <;> rfl
        rw [hl1, hg2]
        omega
    exact Nat.sub_le_sub_left hkey _
  · rw [if_neg hq]
    exact Nat.zero_le _

/-- C5: `evaluate8LowA5` returns the sentinel 0 ("no qualifying hand")
exactly when every five distinct ranks chosen from the hand include a
card of ace-to-five low value above 8 — equivalently, when the best
five-card low either pairs or uses a card above 8; and on any card set
whose ranks are exactly {A,2,3,4,5}, in any suits, it returns the best
possible low evaluation: the wheel value, which bounds every evaluation
the function can produce on 1-to-7-card sets. -/
theorem evaluate8LowA5_spec :
    (∀ x : CardSet, x.cardmask < 2 ^ 52 → 1 ≤ x.size → x.size ≤ 7 →
      (x.evaluate8LowA5 = 0 ↔
        ∀ S : Finset Nat, S ⊆ x.ranksOf → S.card = 5 → ∃ r ∈ S, 8 < lowVal r)) ∧
    (∀ x : CardSet, x.ranksOf = ({0, 1, 2, 3, 12} : Finset Nat) →
      x.evaluate8LowA5 = 16 ^ 5 - lowKey5 [1, 2, 3, 4, 5] ∧
      ∀ y : CardSet, 1 ≤ y.size → y.size ≤ 7 → y.evaluate8LowA5 ≤ x.evaluate8LowA5) := by
  constructor
  · intro x _ _ _
    rw [evaluate8LowA5_eq_zero_iff_card]
    exact lowRanks_card_iff_subsets x
  · intro x hR
    refine ⟨evaluate8LowA5_wheel x hR, ?_⟩
    intro y _ _
    rw [evaluate8LowA5_wheel x hR]
    exact evaluate8LowA5_le_wheelValue y

/-- C5 witness: the wheel clause applied to the concrete set
Ad 2c 3c 4c 5c (mask 15 + 2^25). -/
theorem evaluate8LowA5_spec_witness :
    (CardSet.mk 33554447).ranksOf = ({0, 1, 2, 3, 12} : Finset Nat) ∧
    (CardSet.mk 33554447).evaluate8LowA5 = 16 ^ 5 - lowKey5 [1, 2, 3, 4, 5] :=
  ⟨by decide, (evaluate8LowA5_spec.2 (CardSet.mk 33554447) (by decide)).1⟩

theorem popCount_le_of_lt_two_pow : ∀ n k, n < 2 ^ k → popCount n ≤ k := by
  intro n
  induction n using Nat.strong_induction_on with
  | _ n ih =>
    intro k hk
    by_cases hn : n = 0
    · subst hn
      have h0 : popCount 0 = 0 := rfl
      omega
    · have hk1 : 1 ≤ k := by
        by_contra h
        have hz : k = 0 := by omega
        subst hz
        simp at hk
        omega
      have hpow : 2 ^ k = 2 * 2 ^ (k - 1) := by
        conv_lhs => rw [show k = (k - 1) + 1 by omega]
        rw [pow_succ]
        ring
      have hdiv : n / 2 < 2 ^ (k - 1) := by omega
      have := ih (n / 2) (by omega) (k - 1) hdiv
      rw [popCount_rec n]
      omega

theorem suitMask_assemble (f : Fin 4 → Nat) (hf : ∀ t, f t < 2 ^ 13) :
    ∀ (s : Nat) (h : s < 4), CardSet.suitMask ⟨assembleSuits f⟩ s = f ⟨s, h⟩ := by
  intro s hs
  have h0 := hf 0
  have h1 := hf 1
  have h2 := hf 2
  have h3 := hf 3
  unfold CardSet.suitMask assembleSuits
  rw [Nat.shiftRight_eq_div_pow, Nat.and_pow_two_sub_one_eq_mod]
  interval_cases s
  · have he : (⟨0, hs⟩ : Fin 4) = 0 := rfl
    rw [he]
    norm_num
    omega
  · have he : (⟨1, hs⟩ : Fin 4) = 1 := rfl
    rw [he]
    norm_num
    omega
  · have he : (⟨2, hs⟩ : Fin 4) = 2 := rfl
    rw [he]
    norm_num
    omega
  · have he : (⟨3, hs⟩ : Fin 4) = 3 := rfl
    rw [he]
    norm_num
    omega

theorem assembleSuits_of_suitMask (x : CardSet) (hx : x.cardmask < 2 ^ 52) :
    assembleSuits (fun t : Fin 4 => x.suitMask t.val) = x.cardmask := by
  unfold assembleSuits CardSet.suitMask
  simp only
  have hv0 : ((0 : Fin 4)).val = 0 := rfl
  have hv1 : ((1 : Fin 4)).val = 1 := rfl
  have hv2 : ((2 : Fin 4)).val = 2 := rfl
  have hv3 : ((3 : Fin 4)).val = 3 := rfl
  rw [Nat.shiftRight_eq_div_pow, Nat.shiftRight_eq_div_pow, Nat.shiftRight_eq_div_pow,
    Nat.shiftRight_eq_div_pow, Nat.and_pow_two_sub_one_eq_mod,
    Nat.and_pow_two_sub_one_eq_mod, Nat.and_pow_two_sub_one_eq_mod,
    Nat.and_pow_two_sub_one_eq_mod, hv0, hv1, hv2, hv3]
  norm_num
  omega

theorem assembleSuits_lt (f : Fin 4 → Nat) (hf : ∀ t, f t < 2 ^ 13) :
    assembleSuits f < 2 ^ 52 := by
  have h0 := hf 0
  have h1 := hf 1
  have h2 := hf 2
  have h3 := hf 3
  unfold assembleSuits
  norm_num at h0 h1 h2 h3 ⊢
  omega

theorem canonOrder_perm (x : CardSet) : (canonOrder x).Perm [0, 1, 2, 3] :=
  List.perm_insertionSort _ _

theorem canonOrder_length (x : CardSet) : (canonOrder x).length = 4 := by
  have := (canonOrder_perm x).length_eq
  simpa using this

theorem canonOrder_mem_lt (x : CardSet) : ∀ s ∈ canonOrder x, s < 4 := by
  intro s hs
  have := (canonOrder_perm x).mem_iff.mp hs
  simp at this
  omega

theorem canonOrder_nodup (x : CardSet) : (canonOrder x).Nodup :=
  (canonOrder_perm x).nodup_iff.mpr (by decide)

theorem canonOrder_sorted (x : CardSet) :
    List.Pairwise (fun i j => canonKey x i ≤ canonKey x j) (canonOrder x) := by
  letI : IsTotal Nat (fun i j => canonKey x i ≤ canonKey x j) :=
    ⟨fun a b => le_total _ _⟩
  letI : IsTrans Nat (fun i j => canonKey x i ≤ canonKey x j) :=
    ⟨fun a b c h1 h2 => le_trans h1 h2⟩
  exact List.sorted_insertionSort _ _

theorem canonKey_le_imp (x : CardSet) (i j : Nat) (hi : i < 4) (hj : j < 4)
    (h : canonKey x i ≤ canonKey x j) :
    popCount (x.suitMask j) ≤ popCount (x.suitMask i) := by
  unfold canonKey at h
  have hci : popCount (x.suitMask i) ≤ 13 :=
    popCount_le_of_lt_two_pow _ 13 (suitMask_lt x i)
  have hcj : popCount (x.suitMask j) ≤ 13 :=
    popCount_le_of_lt_two_pow _ 13 (suitMask_lt x j)
  omega

theorem canonize_suitMask (x : CardSet) (t : Nat) (ht : t < 4) :
    (x.canonize).suitMask t = x.suitMask ((canonOrder x).getD t 0) := by
  unfold CardSet.canonize
  exact suitMask_assemble (fun u : Fin 4 => x.suitMask ((canonOrder x).getD u.val 0))
    (fun u => suitMask_lt x _) t ht

theorem canonize_lt (x : CardSet) : (x.canonize).cardmask < 2 ^ 52 :=
  assembleSuits_lt (fun t : Fin 4 => x.suitMask ((canonOrder x).getD t.val 0))
    (fun u => suitMask_lt x _)

theorem canonize_counts_desc (x : CardSet) : ∀ t u, t < u → u < 4 →
    popCount ((x.canonize).suitMask u) ≤ popCount ((x.canonize).suitMask t) := by
  intro t u htu hu
  have hlen := canonOrder_length x
  rw [canonize_suitMask x t (by omega), canonize_suitMask x u hu]
  have hsor := canonOrder_sorted x
  rw [List.pairwise_iff_get] at hsor
  have hkey := hsor ⟨t, by omega⟩ ⟨u, by omega⟩ (Fin.mk_lt_mk.mpr htu)
  have hgt : (canonOrder x).getD t 0 = (canonOrder x).get ⟨t, by omega⟩ :=
    List.getD_eq_get _ _ _
  have hgu : (canonOrder x).getD u 0 = (canonOrder x).get ⟨u, by omega⟩ :=
    List.getD_eq_get _ _ _
  rw [hgt, hgu]
  exact canonKey_le_imp x _ _
    (canonOrder_mem_lt x _ (List.get_mem _ _ _))
    (canonOrder_mem_lt x _ (List.get_mem _ _ _)) hkey

theorem canonOrder_canonize (x : CardSet) : canonOrder (x.canonize) = [0, 1, 2, 3] := by
  have hd := canonize_counts_desc x
  have key_mono : ∀ i j, i < j → j < 4 →
      canonKey (x.canonize) i ≤ canonKey (x.canonize) j := by
    intro i j hij hj
    unfold canonKey
    have h1 := hd i j hij hj
    have h2 : popCount ((x.canonize).suitMask i) ≤ 13 :=
      popCount_le_of_lt_two_pow _ 13 (suitMask_lt _ i)
    omega
  unfold canonOrder
  apply List.Sorted.insertionSort_eq
  refine List.Pairwise.cons ?_ (List.Pairwise.cons ?_ (List.Pairwise.cons ?_
    (List.pairwise_singleton _ _)))
  · intro b hb
    simp at hb
    rcases hb with rfl | rfl | rfl <;> exact key_mono _ _ (by omega) (by omega)
  · intro b hb
    simp at hb
    rcases hb with rfl | rfl <;> exact key_mono _ _ (by omega) (by omega)
  · intro b hb
    simp at hb
    subst hb
    exact key_mono _ _ (by omega) (by omega)

theorem canonize_idem (x : CardSet) : (x.canonize).canonize = x.canonize := by
  have hco := canonOrder_canonize x
  have h1 : (x.canonize).canonize =
      ⟨assembleSuits (fun t : Fin 4 =>
        (x.canonize).suitMask ((canonOrder (x.canonize)).getD t.val 0))⟩ := rfl
  rw [h1, hco]
  have h2 : (fun t : Fin 4 => (x.canonize).suitMask (([0, 1, 2, 3] : List Nat).getD t.val 0))
      = (fun t : Fin 4 => (x.canonize).suitMask t.val) := by
    funext t
    fin_cases t <;> rfl
  rw [h2, assembleSuits_of_suitMask (x.canonize) (canonize_lt x)]

theorem rotateSuits_suitMask (x : CardSet) (π : Equiv.Perm (Fin 4)) (t : Fin 4) :
    (x.rotateSuits π).suitMask (π t).val = x.suitMask t.val := by
  unfold CardSet.rotateSuits
  have h := suitMask_assemble (fun u : Fin 4 => x.suitMask (π.symm u).val)
    (fun u => suitMask_lt x _) (π t).val (π t).isLt
  rw [h]
  have hfin : (⟨(π t).val, (π t).isLt⟩ : Fin 4) = π t := rfl
  rw [hfin, Equiv.symm_apply_apply]

theorem perm_vals (π : Equiv.Perm (Fin 4)) :
    ([(π 0).val, (π 1).val, (π 2).val, (π 3).val] : List Nat).Perm [0, 1, 2, 3] := by
  have hinj : ∀ (a b : Fin 4), a ≠ b → (π a).val ≠ (π b).val := by
    intro a b hab hv
    exact hab (π.injective (Fin.val_injective hv))
  apply List.perm_of_nodup_nodup_toFinset_eq
  · refine List.Pairwise.cons ?_ (List.Pairwise.cons ?_ (List.Pairwise.cons ?_
      (List.pairwise_singleton _ _)))
    · intro b hb
      simp at hb
      rcases hb with rfl | rfl | rfl <;> exact hinj _ _ (by decide)
    · intro b hb
      simp at hb
      rcases hb with rfl | rfl <;> exact hinj _ _ (by decide)
    · intro b hb
      simp at hb
      subst hb
      exact hinj _ _ (by decide)
  · decide
  · ext q
    rw [List.mem_toFinset, List.mem_toFinset]
    constructor
    · intro hq
      simp at hq
      have hq4 : q < 4 := by
        rcases hq with rfl | rfl | rfl | rfl <;> exact (π _).isLt
      simp
      omega
    · intro hq
      simp at hq
      have hq4 : q < 4 := by omega
      have hall : ∀ i : Fin 4,
          (π i).val ∈ ([(π 0).val, (π 1).val, (π 2).val, (π 3).val] : List Nat) := by
        intro i
        fin_cases i <;> simp
      have hm := hall (π.symm ⟨q, hq4⟩)
      rw [Equiv.apply_symm_apply] at hm
      simpa using hm

theorem canonize_rotate_eq_of_distinct (x : CardSet) (π : Equiv.Perm (Fin 4))
    (hdist : ∀ s t : Fin 4, s ≠ t →
      popCount (x.suitMask s.val) ≠ popCount (x.suitMask t.val)) :
    (x.rotateSuits π).canonize = x.canonize := by
  set y := x.rotateSuits π with hy
  set g : Nat → Nat := fun s => if h : s < 4 then (π ⟨s, h⟩).val else s with hg
  have hgval : ∀ (a : Nat) (h : a < 4), g a = (π ⟨a, h⟩).val := by
    intro a h
    rw [hg]
    exact dif_pos h
  have hyg : ∀ (a : Nat) (h : a < 4), y.suitMask (g a) = x.suitMask a := by
    intro a h
    rw [hgval a h]
    exact rotateSuits_suitMask x π ⟨a, h⟩
  have hcnt' : ∀ s : Fin 4,
      popCount (y.suitMask s.val) = popCount (x.suitMask (π.symm s).val) := by
    intro s
    have h := rotateSuits_suitMask x π (π.symm s)
    rw [Equiv.apply_symm_apply] at h
    rw [h]
  have hdisty : ∀ s t : Fin 4, s ≠ t →
      popCount (y.suitMask s.val) ≠ popCount (y.suitMask t.val) := by
    intro s t hst
    rw [hcnt' s, hcnt' t]
    exact hdist _ _ (fun h => hst (π.symm.injective h))
  have hstrict : ∀ (z : CardSet),
      (∀ s t : Fin 4, s ≠ t → popCount (z.suitMask s.val) ≠ popCount (z.suitMask t.val)) →
      List.Pairwise (fun a b => popCount (z.suitMask b) < popCount (z.suitMask a))
        (canonOrder z) := by
    intro z hz
    have hp := List.Pairwise.and (canonOrder_sorted z) (canonOrder_nodup z)
    refine List.Pairwise.imp_of_mem ?_ hp
    intro a b ha hb hab
    have ha4 := canonOrder_mem_lt z a ha
    have hb4 := canonOrder_mem_lt z b hb
    have hle := canonKey_le_imp z a b ha4 hb4 hab.1
    have hne := hz ⟨a, ha4⟩ ⟨b, hb4⟩ (fun h => hab.2 (congrArg Fin.val h))
    simp only at hne
    omega
  have hlist : ([0, 1, 2, 3] : List Nat).map g =
      [(π 0).val, (π 1).val, (π 2).val, (π 3).val] := by
    simp only [List.map_cons, List.map_nil]
    rw [hgval 0 (by omega), hgval 1 (by omega), hgval 2 (by omega), hgval 3 (by omega)]
    rfl
  have hperm : (canonOrder y).Perm ((canonOrder x).map g) := by
    refine (canonOrder_perm y).trans ((perm_vals π).symm.trans ?_)
    rw [← hlist]
    exact ((canonOrder_perm x).map g).symm
  have hsorted2 : List.Pairwise (fun a b => popCount (y.suitMask b) < popCount (y.suitMask a))
      ((canonOrder x).map g) := by
    rw [List.pairwise_map]
    have hp := List.Pairwise.and (canonOrder_sorted x) (canonOrder_nodup x)
    refine List.Pairwise.imp_of_mem ?_ hp
    intro a b ha hb hab
    have ha4 := canonOrder_mem_lt x a ha
    have hb4 := canonOrder_mem_lt x b hb
    have hle := canonKey_le_imp x a b ha4 hb4 hab.1
    have hne := hdist ⟨a, ha4⟩ ⟨b, hb4⟩ (fun h => hab.2 (congrArg Fin.val h))
    simp only at hne
    rw [hyg a ha4, hyg b hb4]
    omega
  letI : IsAntisymm Nat (fun a b => popCount (y.suitMask b) < popCount (y.suitMask a)) :=
    ⟨fun a b h1 h2 => absurd (lt_trans h1 h2) (lt_irrefl _)⟩
  have hmain : canonOrder y = (canonOrder x).map g :=
    List.eq_of_perm_of_sorted hperm (hstrict y hdisty) hsorted2
  have hfun : (fun t : Fin 4 => y.suitMask ((canonOrder y).getD t.val 0))
      = (fun t : Fin 4 => x.suitMask ((canonOrder x).getD t.val 0)) := by
    funext t
    rw [hmain]
    have hlenx := canonOrder_length x
    have htlt : t.val < (canonOrder x).length := by
      rw [hlenx]
      exact t.isLt
    have htlt2 : t.val < ((canonOrder x).map g).length := by simpa using htlt
    rw [List.getD_eq_get _ _ htlt2, List.getD_eq_get _ _ htlt, List.get_map]
    exact hyg _ (canonOrder_mem_lt x _ (List.get_mem (canonOrder x) t.val htlt))
  have h1 : y.canonize =
      ⟨assembleSuits (fun t : Fin 4 => y.suitMask ((canonOrder y).getD t.val 0))⟩ := rfl
  have h2 : x.canonize =
      ⟨assembleSuits (fun t : Fin 4 => x.suitMask ((canonOrder x).getD t.val 0))⟩ := rfl
  rw [h1, h2, hfun]

/-- C2 counterexample: the claim fails on the specified algorithm:
canonize ranks suits by card count with ties broken by the original suit
order, so the two-card set {2c, 3d} (mask 1 + 2^14) and its image under
the suit permutation swapping clubs and diamonds, {2d, 3c}, canonize to
different values (clubs and diamonds tie at one card each, and the
tie-break keeps each suit in place while the held ranks differ). -/
theorem canonize_not_suit_invariant :
    ((CardSet.mk 16385).rotateSuits (Equiv.swap 0 1)).canonize ≠
      (CardSet.mk 16385).canonize := by
  decide

/-- C2 amended: `canonize` is idempotent on every card set; and it is
invariant under suit relabeling for every card set whose four per-suit
card counts are pairwise distinct (when two suits tie in count, the
original-suit-order tie-break can map tied suits holding different ranks
to fixed targets, so full permutation invariance fails — see the
counterexample). -/
theorem canonize_idempotent_and_invariant :
    (∀ x : CardSet, (x.canonize).canonize = x.canonize) ∧
    (∀ (x : CardSet) (π : Equiv.Perm (Fin 4)),
      (∀ s t : Fin 4, s ≠ t →
        popCount (x.suitMask s.val) ≠ popCount (x.suitMask t.val)) →
      (x.rotateSuits π).canonize = x.canonize) :=
  ⟨canonize_idem, canonize_rotate_eq_of_distinct⟩

/-- C2 witness: the invariance clause applied to a concrete set with suit
counts 3, 2, 1, 0 (pairwise distinct) and the permutation swapping clubs
and diamonds; and the idempotence clause at the same set. -/
theorem canonize_idempotent_and_invariant_witness :
    ((CardSet.mk 67133447).rotateSuits (Equiv.swap 0 1)).canonize =
      (CardSet.mk 67133447).canonize ∧
    ((CardSet.mk 67133447).canonize).canonize = (CardSet.mk 67133447).canonize :=
  ⟨canonize_idempotent_and_invariant.2 (CardSet.mk 67133447) (Equiv.swap 0 1) (by decide),
    canonize_idempotent_and_invariant.1 (CardSet.mk 67133447)⟩

theorem colexD_nil : colexD [] = 0 := rfl

theorem colexD_cons (p : Nat) (ps : List Nat) :
    colexD (p :: ps) = Nat.choose p (ps.length + 1) + colexD ps := rfl

theorem colexD_lt :
    ∀ n l, List.Pairwise (· > ·) l → (∀ q ∈ l, q < n) → colexD l < Nat.choose n l.length := by
  intro n
  induction n with
  | zero =>
    intro l _ hb
    cases l with
    | nil => simp [colexD]
    | cons p ps => exact absurd (hb p (by simp)) (by omega)
  | succ n ih =>
    intro l hp hb
    cases l with
    | nil => simp [colexD]
    | cons p ps =>
      have hps_gt : ∀ q ∈ ps, q < p := (List.pairwise_cons.mp hp).1
      have hps_pw := (List.pairwise_cons.mp hp).2
      have hple : p < n + 1 := hb p (by simp)
      by_cases hpn : p = n
      · subst hpn
        have htail := ih ps hps_pw (fun q hq => hps_gt q hq)
        rw [colexD_cons, List.length_cons, Nat.choose_succ_succ]
        simp only [Nat.succ_eq_add_one]
        omega
      · have hbn : ∀ q ∈ p :: ps, q < n := by
          intro q hq
          rcases List.mem_cons.mp hq with rfl | hq'
          · omega
          · have := hps_gt q hq'
            omega
        have hlt := ih (p :: ps) hp hbn
        have hmono : Nat.choose n (p :: ps).length ≤ Nat.choose (n + 1) (p :: ps).length :=
          Nat.choose_le_choose _ (by omega)
        omega

theorem colexD_inj :
    ∀ n l₁ l₂, List.Pairwise (· > ·) l₁ → List.Pairwise (· > ·) l₂ →
      (∀ q ∈ l₁, q < n) → (∀ q ∈ l₂, q < n) → l₁.length = l₂.length →
      colexD l₁ = colexD l₂ → l₁ = l₂ := by
  intro n
  induction n with
  | zero =>
    intro l₁ l₂ _ _ hb₁ _ hlen _
    cases l₁ with
    | nil =>
      cases l₂ with
      | nil => rfl
      | cons q qs => simp at hlen
    | cons p ps => exact absurd (hb₁ p (by simp)) (by omega)
  | succ n ih =>
    intro l₁ l₂ hp₁ hp₂ hb₁ hb₂ hlen hval
    cases l₁ with
    | nil =>
      cases l₂ with
      | nil => rfl
      | cons q qs => simp at hlen
    | cons p ps =>
      cases l₂ with
      | nil => simp at hlen
      | cons q qs =>
        have hps_gt := (List.pairwise_cons.mp hp₁).1
        have hps_pw := (List.pairwise_cons.mp hp₁).2
        have hqs_gt := (List.pairwise_cons.mp hp₂).1
        have hqs_pw := (List.pairwise_cons.mp hp₂).2
        have hlen' : ps.length = qs.length := by simpa using hlen
        rw [colexD_cons, colexD_cons] at hval
        have hp4 : p < n + 1 := hb₁ p (by simp)
        have hq4 : q < n + 1 := hb₂ q (by simp)
        by_cases hpn : p = n
        · by_cases hqn : q = n
          · subst hpn
            subst hqn
            have htails := ih ps qs hps_pw hqs_pw
              (fun r hr => by have := hps_gt r hr; omega)
              (fun r hr => by have := hqs_gt r hr; omega) hlen'
              (by rw [hlen'] at hval; omega)
            rw [htails]
          · exfalso
            have hq_lt : ∀ r ∈ q :: qs, r < n := by
              intro r hr
              rcases List.mem_cons.mp hr with rfl | hr'
              · omega
              · have := hqs_gt r hr'
                omega
            have h2 := colexD_lt n (q :: qs) hp₂ hq_lt
            rw [colexD_cons, List.length_cons] at h2
            subst hpn
            rw [hlen'] at hval
            omega
        · by_cases hqn : q = n
          · exfalso
            have hp_lt : ∀ r ∈ p :: ps, r < n := by
              intro r hr
              rcases List.mem_cons.mp hr with rfl | hr'
              · omega
              · have := hps_gt r hr'
                omega
            have h2 := colexD_lt n (p :: ps) hp₁ hp_lt
            rw [colexD_cons, List.length_cons] at h2
            subst hqn
            rw [hlen'] at hval
            rw [hlen'] at h2
            omega
          · have hp_lt : ∀ r ∈ p :: ps, r < n := by
              intro r hr
              rcases List.mem_cons.mp hr with rfl | hr'
              · omega
              · have := hps_gt r hr'
                omega
            have hq_lt : ∀ r ∈ q :: qs, r < n := by
              intro r hr
              rcases List.mem_cons.mp hr with rfl | hr'
              · omega
              · have := hqs_gt r hr'
                omega
            exact ih (p :: ps) (q :: qs) hp₁ hp₂ hp_lt hq_lt hlen
              (by rw [colexD_cons, colexD_cons]; omega)

theorem colexD_surj :
    ∀ n k v, v < Nat.choose n k →
      ∃ l, List.Pairwise (· > ·) l ∧ (∀ q ∈ l, q < n) ∧ l.length = k ∧ colexD l = v := by
  intro n
  induction n with
  | zero =>
    intro k v hv
    cases k with
    | zero =>
      have h1 : Nat.choose 0 0 = 1 := rfl
      have hv0 : v = 0 := by omega
      subst hv0
      exact ⟨[], List.Pairwise.nil, by simp, rfl, rfl⟩
    | succ k =>
      rw [Nat.choose_eq_zero_of_lt (by omega)] at hv
      omega
  | succ n ih =>
    intro k v hv
    cases k with
    | zero =>
      have h1 : Nat.choose (n + 1) 0 = 1 := Nat.choose_zero_right _
      have hv0 : v = 0 := by omega
      subst hv0
      exact ⟨[], List.Pairwise.nil, by simp, rfl, rfl⟩
    | succ m =>
      by_cases hlt : v < Nat.choose n (m + 1)
      · obtain ⟨l, hpw, hb, hlen, hval⟩ := ih (m + 1) v hlt
        exact ⟨l, hpw, fun q hq => by have := hb q hq; omega, hlen, hval⟩
      · have hsplit : Nat.choose (n + 1) (m + 1) = Nat.choose n m + Nat.choose n (m + 1) :=
          Nat.choose_succ_succ n m
        have hv2 : v - Nat.choose n (m + 1) < Nat.choose n m := by omega
        obtain ⟨ps, hpw, hb, hlen, hval⟩ := ih m (v - Nat.choose n (m + 1)) hv2
        refine ⟨n :: ps, ?_, ?_, ?_, ?_⟩
        · exact List.pairwise_cons.mpr ⟨fun r hr => hb r hr, hpw⟩
        · intro q hq
          rcases List.mem_cons.mp hq with rfl | hq'
          · omega
          · have := hb q hq'
            omega
        · simp [hlen]
        · rw [colexD_cons, hlen, hval]
          omega

theorem colexD_mono :
    ∀ l₁ l₂, List.Forall₂ (· ≤ ·) l₁ l₂ → List.Pairwise (· > ·) l₁ →
      List.Pairwise (· > ·) l₂ → l₁ ≠ l₂ → colexD l₁ < colexD l₂ := by
  intro l₁ l₂ hf
  induction hf with
  | nil =>
    intro _ _ hne
    exact absurd rfl hne
  | @cons a b as bs hab htail ih =>
    intro hp₁ hp₂ hne
    have has_pw := (List.pairwise_cons.mp hp₁).2
    have hbs_pw := (List.pairwise_cons.mp hp₂).2
    have has_gt := (List.pairwise_cons.mp hp₁).1
    have hlen : as.length = bs.length := htail.length_eq
    by_cases heq : a = b
    · subst heq
      have hne' : as ≠ bs := fun h => hne (by rw [h])
      have hstrict := ih has_pw hbs_pw hne'
      rw [colexD_cons, colexD_cons, hlen]
      omega
    · have hab' : a < b := lt_of_le_of_ne hab heq
      have hbound := colexD_lt (a + 1) (a :: as) hp₁ (by
        intro q hq
        rcases List.mem_cons.mp hq with rfl | hq'
        · omega
        · have := has_gt q hq'
          omega)
      rw [colexD_cons, List.length_cons] at hbound
      have hmid : Nat.choose (a + 1) (as.length + 1) ≤ Nat.choose b (as.length + 1) :=
        Nat.choose_le_choose _ (by omega)
      rw [colexD_cons, colexD_cons, hlen]
      rw [hlen] at hbound hmid
      omega

theorem bitIndices_rev_pairwise (m : Nat) :
    List.Pairwise (· > ·) (bitIndices m).reverse := by
  rw [List.pairwise_reverse]
  exact (bitIndicesFrom_pairwise m 0).imp (fun h => h)

theorem bitIndices_rev_bound (m : Nat) (hm : m < 2 ^ 52) :
    ∀ q ∈ (bitIndices m).reverse, q < 52 := by
  intro q hq
  rw [List.mem_reverse] at hq
  have := bitIndicesFrom_mem_lt m 52 0 q hm hq
  omega

theorem bitIndices_rev_length (m : Nat) :
    (bitIndices m).reverse.length = popCount m := by
  rw [List.length_reverse]
  rfl

theorem mask_eq_of_bitIndices_eq (m₁ m₂ : Nat) (h : bitIndices m₁ = bitIndices m₂) :
    m₁ = m₂ := by
  have h1 : sumPow (bitIndices m₁) = m₁ := by
    have := sumPow_bitIndicesFrom m₁ 0
    simpa using this
  have h2 : sumPow (bitIndices m₂) = m₂ := by
    have := sumPow_bitIndicesFrom m₂ 0
    simpa using this
  rw [← h1, ← h2, h]

/-- C3: for every k in 1..52, the colex index restricted to card sets of
population count k is injective, every such index is below choose 52 k,
every value below choose 52 k is attained (the image is exactly the
contiguous range [0, choose 52 k)), and the index grows strictly when
card positions grow (pointwise on the sorted bit positions). -/
theorem colex_combinadic (k : Nat) (hk1 : 1 ≤ k) (hk2 : k ≤ 52) :
    (∀ x y : CardSet, x.cardmask < 2 ^ 52 → y.cardmask < 2 ^ 52 →
      x.size = k → y.size = k → x.colex = y.colex → x = y) ∧
    (∀ x : CardSet, x.cardmask < 2 ^ 52 → x.size = k → x.colex < Nat.choose 52 k) ∧
    (∀ v : Nat, v < Nat.choose 52 k →
      ∃ x : CardSet, x.cardmask < 2 ^ 52 ∧ x.size = k ∧ x.colex = v) ∧
    (∀ x y : CardSet, x.cardmask < 2 ^ 52 → y.cardmask < 2 ^ 52 →
      x.size = k → y.size = k →
      List.Forall₂ (· ≤ ·) (bitIndices x.cardmask) (bitIndices y.cardmask) → x ≠ y →
      x.colex < y.colex) := by
  refine ⟨?_, ?_, ?_, ?_⟩
  · intro x y hx hy hsx hsy hcol
    cases x with
    | mk mx =>
      cases y with
      | mk my =>
        congr 1
        apply mask_eq_of_bitIndices_eq
        apply List.reverse_injective
        apply colexD_inj 52 _ _ (bitIndices_rev_pairwise mx) (bitIndices_rev_pairwise my)
          (bitIndices_rev_bound mx hx) (bitIndices_rev_bound my hy) ?_ hcol
        rw [bitIndices_rev_length, bitIndices_rev_length]
        exact hsx.trans hsy.symm
  · intro x hx hs
    have h := colexD_lt 52 (bitIndices x.cardmask).reverse
      (bitIndices_rev_pairwise x.cardmask) (bitIndices_rev_bound x.cardmask hx)
    rw [bitIndices_rev_length] at h
    have hs' : popCount x.cardmask = k := hs
    exact lt_of_lt_of_le h (le_of_eq (by rw [hs']))
  · intro v hv
    obtain ⟨l, hpw, hb, hlen, hval⟩ := colexD_surj 52 k v hv
    have hrevpw : List.Pairwise (· < ·) l.reverse := by
      rw [List.pairwise_reverse]
      exact hpw.imp (fun h => h)
    have hbits : bitIndices (sumPow l.reverse) = l.reverse :=
      bitIndices_sumPow (sumPow l.reverse) l.reverse hrevpw rfl
    refine ⟨CardSet.mk (sumPow l.reverse), ?_, ?_, ?_⟩
    · rw [sumPow_reverse]
      exact sumPow_lt_two_pow l 52 hpw hb
    · show popCount (sumPow l.reverse) = k
      have hpc : popCount (sumPow l.reverse) = (bitIndices (sumPow l.reverse)).length := rfl
      rw [hpc, hbits, List.length_reverse, hlen]
    · show colexD (bitIndices (sumPow l.reverse)).reverse = v
      rw [hbits, List.reverse_reverse, hval]
  · intro x y hx hy hsx hsy hf hne
    apply colexD_mono _ _ (List.rel_reverse hf) (bitIndices_rev_pairwise x.cardmask)
      (bitIndices_rev_pairwise y.cardmask)
    intro hrev
    apply hne
    cases x with
    | mk mx =>
      cases y with
      | mk my =>
        congr 1
        exact mask_eq_of_bitIndices_eq _ _ (List.reverse_injective hrev)

/-- C3 witness: the contiguity bound of the theorem at k = 2 applied to
the two-card set with mask 3; its colex index lies below choose 52 2. -/
theorem colex_combinadic_witness :
    (CardSet.mk 3).size = 2 ∧ (CardSet.mk 3).colex < Nat.choose 52 2 :=
  ⟨by decide, (colex_combinadic 2 (by decide) (by decide)).2.1 (CardSet.mk 3)
    (by decide) (by decide)⟩
